import Mathlib

/-!
Verification of the diff-construction engine (src/diff.c) and the stash
orchestration callbacks (src/stash.c) of this repository, as a shallow
embedding in Lean.  External collaborators (entry sources, pathspec
matcher, content hasher, submodule provider, configuration store) are
modelled as oracle parameters, following the interfaces of the spec.
-/

namespace Git

/-! ## Path comparators

Modelled from the spec: the negotiated comparator set (path ordering,
path-prefix test, entry-pair comparison) over C strings.  A C string never
contains an interior NUL, so end-of-string ranks strictly below every
character; `charKey` shifts every character up by one to realise that.
The numeric value differs from C `strcmp` only at end-of-string against a
NUL character (unrepresentable in a C string); the sign, which is all the
code ever consults, agrees. -/

def charKey (c : Char) : Int := (c.toNat : Int) + 1

def strcmpChars : List Char → List Char → Int
  | [], [] => 0
  | [], b :: _ => -(charKey b)
  | a :: _, [] => charKey a
  | a :: as, b :: bs => if a = b then strcmpChars as bs else charKey a - charKey b

/-- Modelled from the spec: `git__prefixcmp str pfx` is zero exactly when
`pfx` is a character prefix of `str`, otherwise the signed difference at
the first mismatch. -/
def prefixcmpChars : List Char → List Char → Int
  | _, [] => 0
  | [], b :: _ => -(charKey b)
  | a :: as, b :: bs => if a = b then prefixcmpChars as bs else charKey a - charKey b

/-- The character key sequence a path is compared by: raw characters for the
case-sensitive comparators, lower-cased characters for the
case-insensitive ones. -/
def pathKey (icase : Bool) (s : String) : List Char :=
  if icase then s.data.map Char.toLower else s.data

/-- The negotiated path-ordering comparator (`strcmp` / `strcasecmp`). -/
def pathCmp (icase : Bool) (a b : String) : Int :=
  strcmpChars (pathKey icase a) (pathKey icase b)

/-- The negotiated path-prefix comparator
(`git__prefixcmp` / `git__prefixcmp_icase`). -/
def pfxcomp (icase : Bool) (str pfx : String) : Int :=
  prefixcmpChars (pathKey icase str) (pathKey icase pfx)

theorem strcmpChars_self (a : List Char) : strcmpChars a a = 0 := by
  induction a with
  | nil => rfl
  | cons x xs ih => simp [strcmpChars, ih]

theorem charKey_pos (c : Char) : 0 < charKey c := by
  unfold charKey; omega

theorem charKey_inj {a b : Char} (h : charKey a = charKey b) : a = b := by
  unfold charKey at h
  have h2 : a.toNat = b.toNat := by omega
  exact Char.eq_of_val_eq (UInt32.ext h2)

theorem strcmpChars_eq_zero_iff (a b : List Char) :
    strcmpChars a b = 0 ↔ a = b := by
  induction a generalizing b with
  | nil =>
    cases b with
    | nil => simp [strcmpChars]
    | cons y ys =>
      simp only [strcmpChars]
      have := charKey_pos y
      constructor
      · intro h; omega
      · intro h; simp at h
  | cons x xs ih =>
    cases b with
    | nil =>
      simp only [strcmpChars]
      have := charKey_pos x
      constructor
      · intro h; omega
      · intro h; simp at h
    | cons y ys =>
      simp only [strcmpChars]
      by_cases hxy : x = y
      · subst hxy
        simp [ih]
      · simp only [if_neg hxy]
        constructor
        · intro h
          exact absurd (charKey_inj (by omega)) hxy
        · intro h
          injection h with h1 _
          exact absurd h1 hxy

theorem strcmpChars_neg (a b : List Char) :
    strcmpChars a b = -strcmpChars b a := by
  induction a generalizing b with
  | nil => cases b <;> simp [strcmpChars]
  | cons x xs ih =>
    cases b with
    | nil => simp [strcmpChars]
    | cons y ys =>
      by_cases hxy : x = y
      · subst hxy; simp [strcmpChars, ih]
      · have hyx : ¬ y = x := fun h => hxy h.symm
        simp only [strcmpChars, if_neg hxy, if_neg hyx]
        omega

theorem strcmpChars_lt_trans {a b c : List Char}
    (hab : strcmpChars a b < 0) (hbc : strcmpChars b c < 0) :
    strcmpChars a c < 0 := by
  induction a generalizing b c with
  | nil =>
    cases c with
    | nil =>
      cases b with
      | nil => simp [strcmpChars] at hab
      | cons y ys =>
        have hk := charKey_pos y
        simp only [strcmpChars] at hbc
        omega
    | cons z zs =>
      simp only [strcmpChars]
      have := charKey_pos z
      omega
  | cons x xs ih =>
    cases b with
    | nil =>
      have hk := charKey_pos x
      simp only [strcmpChars] at hab
      omega
    | cons y ys =>
      cases c with
      | nil =>
        have hk := charKey_pos y
        simp only [strcmpChars] at hbc
        omega
      | cons z zs =>
        simp only [strcmpChars] at hab hbc ⊢
        by_cases hxy : x = y
        · subst hxy
          by_cases hyz : x = z
          · subst hyz
            simp only [if_pos rfl] at *
            exact ih (by simpa using hab) (by simpa using hbc)
          · simp only [if_pos rfl] at hab
            simpa [if_neg hyz] using (by simpa [if_neg hyz] using hbc)
        · by_cases hyz : y = z
          · subst hyz
            by_cases hxz : x = y
            · exact absurd hxz hxy
            · simpa [if_neg hxz] using (by simpa [if_neg hxy] using hab)
          · simp only [if_neg hxy] at hab
            simp only [if_neg hyz] at hbc
            have hxz : ¬ x = z := by
              intro h; subst h
              have h1 := charKey_pos x
              omega
            simp only [if_neg hxz]
            omega

theorem pathCmp_self (icase : Bool) (a : String) : pathCmp icase a a = 0 := by
  unfold pathCmp; exact strcmpChars_self _

theorem pathCmp_lt_trans {icase : Bool} {a b c : String}
    (hab : pathCmp icase a b < 0) (hbc : pathCmp icase b c < 0) :
    pathCmp icase a c < 0 :=
  strcmpChars_lt_trans hab hbc

theorem pathCmp_eq_key {icase : Bool} {a b : String}
    (h : pathCmp icase a b = 0) : pathKey icase a = pathKey icase b := by
  unfold pathCmp at h
  exact (strcmpChars_eq_zero_iff _ _).mp h

theorem pathCmp_zero_lt_trans {icase : Bool} {a b c : String}
    (hab : pathCmp icase a b = 0) (hbc : pathCmp icase b c < 0) :
    pathCmp icase a c < 0 := by
  unfold pathCmp at *
  rw [(strcmpChars_eq_zero_iff _ _).mp hab]
  exact hbc

theorem pathCmp_lt_zero_trans {icase : Bool} {a b c : String}
    (hab : pathCmp icase a b < 0) (hbc : pathCmp icase b c = 0) :
    pathCmp icase a c < 0 := by
  unfold pathCmp at *
  rw [← (strcmpChars_eq_zero_iff _ _).mp hbc]
  exact hab

theorem pathCmp_gt_asym {icase : Bool} {a b : String}
    (h : pathCmp icase a b > 0) : pathCmp icase b a < 0 := by
  unfold pathCmp at *
  rw [strcmpChars_neg]
  omega

end Git

namespace Git

/-! ## Data model -/

/-- Delta status kinds.  Modelled from the spec: the status enumeration in
its listed order (unmodified, added, deleted, modified, renamed, copied,
ignored, untracked, typechange), numbered 0..8 by `statusCode` below. -/
inductive DeltaT where
  | unmodified | added | deleted | modified | renamed | copied
  | ignored | untracked | typechange
deriving DecidableEq, Repr

/-- Modelled from the spec: the numeric value of each status kind, in the
order the spec lists them (used by the (path, status) comparator). -/
def statusCode : DeltaT → Int
  | .unmodified => 0
  | .added => 1
  | .deleted => 2
  | .modified => 3
  | .renamed => 4
  | .copied => 5
  | .ignored => 6
  | .untracked => 7
  | .typechange => 8

/-- One entry of an ordered snapshot (git_index_entry), as exposed by an
Entry Source.  An all-zero content hash is represented by `oid = 0`. -/
structure Entry where
  path : String
  oid : Nat
  mode : Nat
  fileSize : Nat
  ctimeSeconds : Int
  mtimeSeconds : Int
  dev : Nat
  ino : Nat
  uid : Nat
  gid : Nat
  intentToAdd : Bool
  skipWorktree : Bool
deriving DecidableEq, Repr

/-- One side of a delta (git_diff_file); `validOid` is the
GIT_DIFF_FILE_VALID_OID flag. -/
structure DiffFile where
  path : String
  oid : Nat
  size : Nat
  mode : Nat
  validOid : Bool
deriving DecidableEq, Repr

/-- A delta record (git_diff_delta). -/
structure Delta where
  status : DeltaT
  oldFile : DiffFile
  newFile : DiffFile
deriving DecidableEq, Repr

/-- The path a delta is ordered by (git_diff_delta__cmp compares
old_file.path; both sides always alias the same path at construction). -/
def deltaPath (d : Delta) : String := d.oldFile.path

/-- Option flags of git_diff_options (the flags the engine consults). -/
structure Options where
  reverse : Bool
  includeIgnored : Bool
  includeUntracked : Bool
  includeUnmodified : Bool
  includeTypechange : Bool
  includeTypechangeTrees : Bool
  recurseUntrackedDirs : Bool
  disablePathspecMatch : Bool
  ignoreSubmodules : Bool
  ignoreFilemode : Bool
  deltasAreIcase : Bool
deriving DecidableEq, Repr

/-- Derived capability flags (diffcaps). -/
structure DiffCaps where
  hasSymlinks : Bool
  assumeUnchanged : Bool
  trustModeBits : Bool
  trustCtime : Bool
  useDev : Bool
deriving DecidableEq, Repr

/-- The mutable diff-list state the construction primitives thread:
effective options, capability flags and the delta collection in append
order (git_vector_insert appends at the tail). -/
structure DiffState where
  opts : Options
  caps : DiffCaps
  deltas : List Delta
deriving DecidableEq, Repr

/-- A submodule as seen through the submodule provider. -/
structure Submodule where
  ignoreAll : Bool
  statusUnmodified : Option Bool
  wdOid : Option Nat
deriving DecidableEq, Repr

/-- External collaborators, as oracle functions: the pathspec matcher
(path, disable flag, icase flag), the content-hash provider
(git_diff__oid_for_file; none = I/O failure) and the submodule provider
(none = lookup failure). -/
structure Env where
  pathspecMatch : String → Bool → Bool → Bool
  oidForFile : Entry → Option Nat
  subLookup : String → Option Submodule

/-- Iterator kinds (git_iterator type tags). -/
inductive IterType where
  | tree | index | workdir
deriving DecidableEq, Repr

/-! ## Mode bits (standard POSIX file-type masks used by the code) -/

def GIT_MODE_TYPE (m : Nat) : Nat := m &&& 61440

def S_ISDIR (m : Nat) : Bool := GIT_MODE_TYPE m == 16384

def S_ISREG (m : Nat) : Bool := GIT_MODE_TYPE m == 32768

def S_ISLNK (m : Nat) : Bool := GIT_MODE_TYPE m == 40960

def S_ISGITLINK (m : Nat) : Bool := GIT_MODE_TYPE m == 57344

def GIT_FILEMODE_TREE : Nat := 16384

/-! ## Construction primitives (diff.c) -/

/-- The status remap diff_delta__alloc applies under GIT_DIFF_REVERSE:
added and deleted swap, every other status is left alone. -/
def remapStatus (rev : Bool) (status : DeltaT) : DeltaT :=
  if rev then
    match status with
    | .added => .deleted
    | .deleted => .added
    | s => s
  else status

/-- diff_delta__alloc: a zero-initialised delta whose two sides alias one
path, with the reverse status remap applied. -/
def diff_delta__alloc (opts : Options) (status : DeltaT) (path : String) : Delta :=
  { status := remapStatus opts.reverse status
    oldFile := { path := path, oid := 0, size := 0, mode := 0, validOid := false }
    newFile := { path := path, oid := 0, size := 0, mode := 0, validOid := false } }

/-- The delta built by diff_delta__from_one once the filters have passed:
populate the old side when the (post-remap) status is deleted, the new
side otherwise; the old side's hash is always flagged valid, the new
side's when the status is deleted or its hash is nonzero. -/
def diff_delta__from_one_delta (opts : Options) (status : DeltaT) (entry : Entry) : Delta :=
  let d := diff_delta__alloc opts status entry.path
  let d :=
    if d.status = .deleted then
      { d with oldFile :=
        { d.oldFile with mode := entry.mode, size := entry.fileSize, oid := entry.oid } }
    else
      { d with newFile :=
        { d.newFile with mode := entry.mode, size := entry.fileSize, oid := entry.oid } }
  let d := { d with oldFile := { d.oldFile with validOid := true } }
  if d.status = .deleted ∨ d.newFile.oid ≠ 0 then
    { d with newFile := { d.newFile with validOid := true } }
  else d

/-- diff_delta__from_one: single-sided construction.  Ignored and
untracked deltas the caller did not ask for, and paths failing the
pathspec test, are dropped; otherwise the delta is appended. -/
def diff_delta__from_one (env : Env) (st : DiffState) (status : DeltaT) (entry : Entry) :
    DiffState :=
  if status = .ignored ∧ st.opts.includeIgnored = false then st
  else if status = .untracked ∧ st.opts.includeUntracked = false then st
  else if env.pathspecMatch entry.path st.opts.disablePathspecMatch st.opts.deltasAreIcase
          = false then st
  else
    { st with deltas :=
        st.deltas ++ [diff_delta__from_one_delta st.opts status entry] }

/-- The delta built by diff_delta__from_two once the unmodified filter has
passed: under reverse the two entries and their modes swap, and the
override hash lands on the old side instead of the new one. -/
def diff_delta__from_two_delta (opts : Options) (status : DeltaT)
    (oldEntry : Entry) (oldMode : Nat) (newEntry : Entry) (newMode : Nat)
    (newOid : Option Nat) : Delta :=
  let oe := if opts.reverse then newEntry else oldEntry
  let ne := if opts.reverse then oldEntry else newEntry
  let om := if opts.reverse then newMode else oldMode
  let nm := if opts.reverse then oldMode else newMode
  let d := diff_delta__alloc opts status oe.path
  let d := { d with
    oldFile := { d.oldFile with oid := oe.oid, size := oe.fileSize, mode := om, validOid := true }
    newFile := { d.newFile with oid := ne.oid, size := ne.fileSize, mode := nm } }
  let d :=
    match newOid with
    | some h =>
      if opts.reverse then { d with oldFile := { d.oldFile with oid := h } }
      else { d with newFile := { d.newFile with oid := h } }
    | none => d
  if newOid.isSome ∨ ne.oid ≠ 0 then
    { d with newFile := { d.newFile with validOid := true } }
  else d

/-- diff_delta__from_two: two-sided construction; unmodified deltas are
dropped unless requested, everything else is appended. -/
def diff_delta__from_two (st : DiffState) (status : DeltaT)
    (oldEntry : Entry) (oldMode : Nat) (newEntry : Entry) (newMode : Nat)
    (newOid : Option Nat) : DiffState :=
  if status = .unmodified ∧ st.opts.includeUnmodified = false then st
  else
    { st with deltas :=
        st.deltas ++
          [diff_delta__from_two_delta st.opts status oldEntry oldMode newEntry newMode newOid] }

/-- The match test of diff_delta__last_for_item: does this (last) delta
carry the item's hash on the side its status dictates? -/
def last_for_item_matches (d : Delta) (item : Entry) : Bool :=
  match d.status with
  | .unmodified => d.oldFile.oid == item.oid
  | .deleted => d.oldFile.oid == item.oid
  | .added => d.newFile.oid == item.oid
  | .modified => d.oldFile.oid == item.oid || d.newFile.oid == item.oid
  | _ => false

/-- Patch applied to a just-appended old-only delta when its path became a
directory on the new side: status typechange, new mode tree. -/
def patchNewTree (d : Delta) : Delta :=
  { d with status := .typechange, newFile := { d.newFile with mode := GIT_FILEMODE_TREE } }

/-- Mirrored patch for the new-only branch: status typechange, old mode
tree. -/
def patchOldTree (d : Delta) : Delta :=
  { d with status := .typechange, oldFile := { d.oldFile with mode := GIT_FILEMODE_TREE } }

/-- diff_delta__last_for_item followed by the in-place patch: the last
delta of the collection is replaced by `f` of itself when it matches the
item's hash, and nothing else changes. -/
def patchLastForItem (item : Entry) (f : Delta → Delta) : List Delta → List Delta
  | [] => []
  | [d] => if last_for_item_matches d item then [f d] else [d]
  | d :: rest => d :: patchLastForItem item f rest

/-- git_diff_delta__cmp: order deltas by old path, tie-broken by status
code.  (`pathCmpRaw` is the case-sensitive comparator; the C function
always uses strcmp here.) -/
def git_diff_delta__cmp (a b : Delta) : Int :=
  let val := pathCmp false a.oldFile.path b.oldFile.path
  if val ≠ 0 then val else statusCode a.status - statusCode b.status

/-- config_bool: read a boolean from the configuration store, recovering
from a read failure (or absence) with the given default. -/
def config_bool (cfg : String → Option Bool) (name : String) (defvalue : Bool) : Bool :=
  (cfg name).getD defvalue

/-- The capability-flag block of git_diff_list_alloc: the four
configuration reads with their documented defaults (GIT_DIFFCAPS_USE_DEV
is never set — a compile-time option in core git). -/
def diff_caps_from_config (cfg : String → Option Bool) : DiffCaps :=
  { hasSymlinks := config_bool cfg "core.symlinks" true
    assumeUnchanged := config_bool cfg "core.ignorestat" false
    trustModeBits := config_bool cfg "core.filemode" true
    trustCtime := config_bool cfg "core.trustctime" true
    useDev := false }

/-- git_diff_list_alloc, reduced to the state the engine consults: the
capability flags read from configuration (with the
GIT_DIFF_IGNORE_FILEMODE override clearing filemode trust), the options
with the TYPECHANGE_TREES-implies-TYPECHANGE normalization, and an empty
delta collection.  Configuration read failures never fail the call. -/
def git_diff_list_alloc (cfg : String → Option Bool) (opts : Options) : DiffState :=
  let caps := diff_caps_from_config cfg
  let caps :=
    if opts.ignoreFilemode then { caps with trustModeBits := false } else caps
  let opts :=
    if opts.includeTypechangeTrees then { opts with includeTypechange := true } else opts
  { opts := opts, caps := caps, deltas := [] }

end Git

namespace Git

/-! ## Classifier (maybe_modified) -/

/-- The workdir metadata normalization at the top of maybe_modified: keep a
symlink's mode when the platform has no symlinks, and carry the old low
mode bits forward when the executable bit cannot be trusted. -/
def workdir_mode_normalize (caps : DiffCaps) (newIsWorkdir : Bool) (omode nmode : Nat) : Nat :=
  let nmode1 :=
    if S_ISLNK omode && S_ISREG nmode && newIsWorkdir && !caps.hasSymlinks then omode
    else nmode
  if !caps.trustModeBits && (nmode1 % 512 != omode % 512) && newIsWorkdir then
    nmode1 - nmode1 % 512 + omode % 512
  else nmode1

/-- The racy-heuristic stat comparison of maybe_modified: mode, size,
mtime, inode, uid and gid equal, ctime equal when ctime is trusted, device
equal when the device number is used. -/
def stat_data_alike (caps : DiffCaps) (oitem nitem : Entry) (omode nmode : Nat) : Bool :=
  omode == nmode &&
  oitem.fileSize == nitem.fileSize &&
  (!caps.trustCtime || oitem.ctimeSeconds == nitem.ctimeSeconds) &&
  oitem.mtimeSeconds == nitem.mtimeSeconds &&
  (!caps.useDev || oitem.dev == nitem.dev) &&
  oitem.ino == nitem.ino &&
  oitem.uid == nitem.uid &&
  oitem.gid == nitem.gid

/-- The tail of maybe_modified (from the "calculate the OID now" comment
on): when the pair is not yet proven unmodified and the new hash is
unknown, obtain it (from the submodule capture or the content-hash
provider — the latter may fail), downgrade to unmodified when it matches
the old side with equal modes, then hand off to two-sided construction. -/
def maybe_modified_finish (env : Env) (oitem : Entry) (omode : Nat)
    (nitem : Entry) (nmode : Nat) (st : DiffState) (status : DeltaT)
    (useNoid : Option Nat) : Option DiffState :=
  if status ≠ .unmodified ∧ nitem.oid = 0 then
    match useNoid with
    | some h =>
      let status := if omode = nmode ∧ oitem.oid = h then DeltaT.unmodified else status
      some (diff_delta__from_two st status oitem omode nitem nmode (some h))
    | none =>
      match env.oidForFile nitem with
      | none => none
      | some h =>
        let status := if omode = nmode ∧ oitem.oid = h then DeltaT.unmodified else status
        some (diff_delta__from_two st status oitem omode nitem nmode (some h))
  else
    some (diff_delta__from_two st status oitem omode nitem nmode useNoid)

/-- The outcome of the decision chain of maybe_modified: the pair is
dropped (pathspec), a provider failed, the pair is split into a deleted
and an added delta, or control reaches the common tail with a tentative
status and a possibly captured submodule hash. -/
inductive Classify where
  | skip
  | err
  | split
  | finish (status : DeltaT) (useNoid : Option Nat)
deriving DecidableEq, Repr

/-- The decision chain of maybe_modified, rule by rule in source order:
pathspec, assume-unchanged, skip-worktree, type-class mismatch (split or
tentative typechange), hash-and-mode equality, the racy stat heuristic
and the submodule consultation for an unknown workdir hash, default
modified. -/
def maybe_modified_classify (env : Env) (newIterType : IterType)
    (oitem nitem : Entry) (st : DiffState) : Classify :=
  if env.pathspecMatch oitem.path st.opts.disablePathspecMatch st.opts.deltasAreIcase
      = false then
    .skip
  else
    let omode := oitem.mode
    let newIsWorkdir : Bool := newIterType == IterType.workdir
    let nmode := workdir_mode_normalize st.caps newIsWorkdir omode nitem.mode
    if st.caps.assumeUnchanged then
      .finish (if oitem.intentToAdd then .modified else .unmodified) none
    else if oitem.skipWorktree then
      .finish .unmodified none
    else if GIT_MODE_TYPE omode ≠ GIT_MODE_TYPE nmode then
      if st.opts.includeTypechange then .finish .typechange none else .split
    else if oitem.oid = nitem.oid ∧ omode = nmode then
      .finish .unmodified none
    else if nitem.oid = 0 ∧ newIsWorkdir = true then
      if stat_data_alike st.caps oitem nitem omode nmode then
        .finish .unmodified none
      else if S_ISGITLINK nmode then
        if st.opts.ignoreSubmodules then
          .finish .unmodified none
        else
          match env.subLookup nitem.path with
          | none => .err
          | some sub =>
            if sub.ignoreAll then
              .finish .unmodified none
            else
              match sub.statusUnmodified with
              | none => .err
              | some isUnmod =>
                .finish (if isUnmod then .unmodified else .modified)
                  (if nitem.oid = 0 then sub.wdOid else none)
      else
        .finish .modified none
    else
      .finish .modified none

/-- maybe_modified: classify a matched old/new pair and append the
resulting delta(s): a skipped pair leaves the state alone, a split
appends the deleted and added single-sided deltas and returns, and every
other decision reaches the common tail (hash recomputation and two-sided
construction).  `none` models a provider failure aborting the run. -/
def maybe_modified (env : Env) (newIterType : IterType)
    (oitem nitem : Entry) (st : DiffState) : Option DiffState :=
  let nmode := workdir_mode_normalize st.caps (newIterType == IterType.workdir)
      oitem.mode nitem.mode
  match maybe_modified_classify env newIterType oitem nitem st with
  | .skip => some st
  | .err => none
  | .split =>
    some (diff_delta__from_one env (diff_delta__from_one env st .deleted oitem) .added nitem)
  | .finish status useNoid =>
    maybe_modified_finish env oitem oitem.mode nitem nmode st status useNoid

/-! ## Merge-join driver (diff_from_iterators) -/

/-- One item of an entry source: the entry itself, the iterator's
current-is-ignored answer for it, whether (for an untracked workdir
directory) its on-disk path contains a repository metadata marker, and the
contained items advance_into_directory would descend into. -/
inductive Item where
  | mk (entry : Entry) (ignoredFlag : Bool) (hasDotGit : Bool) (contents : List Item)

def Item.entry : Item → Entry
  | .mk e _ _ _ => e

def Item.ignoredFlag : Item → Bool
  | .mk _ i _ _ => i

def Item.hasDotGit : Item → Bool
  | .mk _ _ g _ => g

def Item.contents : Item → List Item
  | .mk _ _ _ c => c

/-- The negotiated entry comparator (git_index_entry__cmp and its icase
variant compare entries by path). -/
def entrycomp (icase : Bool) (a b : Entry) : Int := pathCmp icase a.path b.path

/-- entry_is_prefixed: does `item`'s path name a strict directory prefix
of `prefixItem`'s path (or is it itself a directory-slash path there)? -/
def entry_is_prefixed (icase : Bool) (item : Entry) (prefixItem : Option Entry) : Bool :=
  match prefixItem with
  | none => false
  | some p =>
    if pfxcomp icase p.path item.path != 0 then false
    else
      let pathlen := item.path.length
      (item.path.data.getD (pathlen - 1) (Char.ofNat 0)) == '/' ||
      (p.path.data.getD pathlen (Char.ofNat 0)) == (Char.ofNat 0) ||
      (p.path.data.getD pathlen (Char.ofNat 0)) == '/'

/-- The old-only step of the driver loop: emit a deleted delta, then — when
typechange-as-tree-transition records are wanted and this path became a
directory on the new side — patch the collection's last delta (matched by
hash against the old item) to typechange with a tree new mode. -/
def oldOnlyStep (env : Env) (icase : Bool) (oitem : Entry) (nitemOpt : Option Entry)
    (st : DiffState) : DiffState :=
  let st1 := diff_delta__from_one env st .deleted oitem
  if st.opts.includeTypechangeTrees && entry_is_prefixed icase oitem nitemOpt then
    { st1 with deltas := patchLastForItem oitem patchNewTree st1.deltas }
  else st1

/-- The emitting part of the new-only step: emit the single-sided delta,
then — when typechange-as-tree-transition records are wanted, the delta is
not ignored, and the new path is a directory prefix of the old side's
current path — patch the collection's last delta (matched by hash against
the OLD item, as the code does) to typechange with a tree old mode. -/
def newOnlyEmit (env : Env) (icase : Bool) (deltaType : DeltaT) (nitem : Entry)
    (oitemOpt : Option Entry) (st : DiffState) : DiffState :=
  let st1 := diff_delta__from_one env st deltaType nitem
  match oitemOpt with
  | some o =>
    if deltaType ≠ .ignored ∧ st.opts.includeTypechangeTrees = true ∧
        entry_is_prefixed icase nitem (some o) = true then
      { st1 with deltas := patchLastForItem o patchOldTree st1.deltas }
    else st1
  | none => st1

/-- The new-item classification against the active ignored prefix: a path
under a previously recorded ignored directory prefix starts as ignored,
everything else as untracked. -/
def newDeltaType0 (icase : Bool) (ignorePfx : String) (n : Entry) : DeltaT :=
  if ignorePfx.length != 0 && pfxcomp icase n.path ignorePfx == 0 then .ignored
  else .untracked

/-- The final classification of an emitted new-only non-directory item:
individually ignored items become ignored, items from a non-workdir
source become added, the rest keep the untracked default. -/
def newDeltaTypeFile (newType : IterType) (ignoredFlag : Bool) (deltaType0 : DeltaT) : DeltaT :=
  if ignoredFlag then DeltaT.ignored
  else if newType ≠ IterType.workdir then .added
  else deltaType0

/-- The recursion decision for a new-only directory item: descend when it
contains tracked items, or when untracked recursion was requested, it is
not under an ignored prefix, and it does not contain a repository
metadata marker. -/
def dirRecurseDecision (opts : Options) (deltaType0 : DeltaT)
    (containsTracked hasDotGit : Bool) : Bool :=
  containsTracked ||
  ((deltaType0 == DeltaT.untracked && opts.recurseUntrackedDirs) &&
   !(!containsTracked && hasDotGit))

/-- The merge-join loop of diff_from_iterators over two ordered entry
sources, driven by explicit fuel (every loop iteration consumes one unit;
the loop always terminates because each step either drops an item or
replaces a directory item by its contents).  `none` models an aborted
run (or exhausted fuel).  The new-only branch classifies against the
active ignored prefix, descends into directories that contain tracked
items or whose untracked contents were requested (remembering an ignored
directory as the new active prefix), skips non-directory items under the
active prefix completely, and otherwise classifies and emits. -/
def diff_from_iterators (env : Env) (newType : IterType) (icase : Bool) :
    Nat → List Item → List Item → String → DiffState → Option DiffState
  | 0, _, _, _, _ => none
  | _ + 1, [], [], _, st => some st
  | fuel + 1, oi :: orest, [], ignorePfx, st =>
    diff_from_iterators env newType icase fuel orest [] ignorePfx
      (oldOnlyStep env icase oi.entry none st)
  | fuel + 1, [], ni :: nrest, ignorePfx, st =>
    let deltaType0 := newDeltaType0 icase ignorePfx ni.entry
    if S_ISDIR ni.entry.mode then
      if dirRecurseDecision st.opts deltaType0
          (entry_is_prefixed icase ni.entry none) ni.hasDotGit then
        let ignorePfx2 :=
          if deltaType0 == .untracked && ni.ignoredFlag then ni.entry.path else ignorePfx
        diff_from_iterators env newType icase fuel [] (ni.contents ++ nrest) ignorePfx2 st
      else
        diff_from_iterators env newType icase fuel [] nrest ignorePfx
          (newOnlyEmit env icase deltaType0 ni.entry none st)
    else if deltaType0 = .ignored then
      diff_from_iterators env newType icase fuel [] nrest ignorePfx st
    else
      diff_from_iterators env newType icase fuel [] nrest ignorePfx
        (newOnlyEmit env icase (newDeltaTypeFile newType ni.ignoredFlag deltaType0)
          ni.entry none st)
  | fuel + 1, oi :: orest, ni :: nrest, ignorePfx, st =>
    let c := entrycomp icase oi.entry ni.entry
    if c < 0 then
      diff_from_iterators env newType icase fuel orest (ni :: nrest) ignorePfx
        (oldOnlyStep env icase oi.entry (some ni.entry) st)
    else if c > 0 then
      let deltaType0 := newDeltaType0 icase ignorePfx ni.entry
      if S_ISDIR ni.entry.mode then
        if dirRecurseDecision st.opts deltaType0
            (entry_is_prefixed icase ni.entry (some oi.entry)) ni.hasDotGit then
          let ignorePfx2 :=
            if deltaType0 == .untracked && ni.ignoredFlag then ni.entry.path else ignorePfx
          diff_from_iterators env newType icase fuel (oi :: orest) (ni.contents ++ nrest)
            ignorePfx2 st
        else
          diff_from_iterators env newType icase fuel (oi :: orest) nrest ignorePfx
            (newOnlyEmit env icase deltaType0 ni.entry (some oi.entry) st)
      else if deltaType0 = .ignored then
        diff_from_iterators env newType icase fuel (oi :: orest) nrest ignorePfx st
      else
        diff_from_iterators env newType icase fuel (oi :: orest) nrest ignorePfx
          (newOnlyEmit env icase (newDeltaTypeFile newType ni.ignoredFlag deltaType0)
            ni.entry (some oi.entry) st)
    else
      match maybe_modified env newType oi.entry ni.entry st with
      | none => none
      | some st2 =>
        diff_from_iterators env newType icase fuel orest nrest ignorePfx st2

end Git

namespace Git

namespace Stash

/-! ## Stash (src/stash.c) -/

/-- The payload the stash index-update callback receives (struct cb_data,
minus the index, which is threaded explicitly). -/
structure CbData where
  includeChanged : Bool
  includeUntracked : Bool
  includeIgnored : Bool
deriving DecidableEq, Repr

/-- External collaborator of the stash callback: git_index_add_from_workdir
reads the working directory, so it is an oracle that may fail. -/
structure StashEnv where
  addFromWorkdir : List String → String → Option (List String)

/-- git_index_find: locate a path in the index (position, or failure when
absent). -/
def git_index_find (index : List String) (path : String) : Option Nat :=
  if path ∈ index then some (index.indexOf path) else none

/-- git_index_remove: drop a path from the index; fails when absent. -/
def git_index_remove (index : List String) (path : String) : Option (List String) :=
  if path ∈ index then some (index.erase path) else none

/-- update_index_cb: the per-delta callback of the stash orchestration.
Returns the callback's return code together with the updated index.  The
deleted case deliberately reproduces the C switch: after a successful
find-and-remove it falls through into the unimplemented-status branch
(which sets an error and returns -1). -/
def update_index_cb (env : StashEnv) (data : CbData) (index : List String)
    (delta : Delta) : Int × List String :=
  match delta.status with
  | .ignored =>
    if !data.includeIgnored then (0, index)
    else
      match env.addFromWorkdir index delta.newFile.path with
      | some idx2 => (0, idx2)
      | none => (-1, index)
  | .untracked =>
    if !data.includeUntracked then (0, index)
    else
      match env.addFromWorkdir index delta.newFile.path with
      | some idx2 => (0, idx2)
      | none => (-1, index)
  | .added =>
    if !data.includeChanged then (0, index)
    else
      match env.addFromWorkdir index delta.newFile.path with
      | some idx2 => (0, idx2)
      | none => (-1, index)
  | .modified =>
    if !data.includeChanged then (0, index)
    else
      match env.addFromWorkdir index delta.newFile.path with
      | some idx2 => (0, idx2)
      | none => (-1, index)
  | .deleted =>
    if !data.includeChanged then (0, index)
    else
      match git_index_find index delta.newFile.path with
      | none => (-1, index)
      | some _ =>
        match git_index_remove index delta.newFile.path with
        | none => (-1, index)
        | some idx2 => (-1, idx2)
  | _ => (-1, index)

/-- Modelled from the spec: git_diff_foreach visits the deltas in order;
a nonzero visitor return aborts the iteration and the call reports a
non-success outcome. -/
def git_diff_foreach (env : StashEnv) (data : CbData) (index : List String) :
    List Delta → Int × List String
  | [] => (0, index)
  | d :: rest =>
    let r := update_index_cb env data index d
    if r.1 ≠ 0 then r
    else git_diff_foreach env data r.2 rest

/-- Reflog entries as the stash iteration sees them: message and new oid. -/
structure ReflogEntry where
  msg : String
  oidNew : Nat
deriving DecidableEq, Repr

/-- The outcome of git_reference_lookup for the stash reference. -/
inductive RefLookup where
  | notFound
  | failed (code : Int)
  | found
deriving DecidableEq, Repr

/-- A repository as git_stash_foreach consumes it: the stash reference
lookup outcome, and the reflog read outcome for that reference. -/
structure StashRepo where
  stashRef : RefLookup
  reflog : Option (List ReflogEntry)
deriving DecidableEq, Repr

/-- The user-cancellation outcome (GIT_EUSER). -/
def GIT_EUSER : Int := -7

/-- An unspecified negative code for a failed reflog read. -/
def REFLOG_READ_ERROR : Int := -1

/-- The visiting loop of git_stash_foreach: the reflog entries are walked
newest-first (byindex max-i-1 for i = 0..max-1, i.e. the reverse of
storage order), and a truthy callback return aborts with GIT_EUSER. -/
def stash_visit (callback : Nat → String → Nat → Bool) :
    Nat → List ReflogEntry → List (Nat × String × Nat) → Int × List (Nat × String × Nat)
  | _, [], acc => (0, acc)
  | i, e :: rest, acc =>
    let acc2 := acc ++ [(i, e.msg, e.oidNew)]
    if callback i e.msg e.oidNew then (GIT_EUSER, acc2)
    else stash_visit callback (i + 1) rest acc2

/-- git_stash_foreach: look up the stash reference (a missing reference is
success with no visits), read its reflog, then visit entries newest-first.
Returns the error code together with the list of performed callback
invocations (index, message, new oid). -/
def git_stash_foreach (repo : StashRepo) (callback : Nat → String → Nat → Bool) :
    Int × List (Nat × String × Nat) :=
  match repo.stashRef with
  | .notFound => (0, [])
  | .failed code => (code, [])
  | .found =>
    match repo.reflog with
    | none => (REFLOG_READ_ERROR, [])
    | some entries => stash_visit callback 0 entries.reverse []

end Stash

end Git

namespace Git

/-! ## C8: configuration defaults and local recovery -/

/-- C8: for every diff-list creation, the capability flags are read from
the configuration store with the documented defaults (symlinks true,
assume-unchanged false, filemode trust true — cleared again when the
ignore-filemode option is set — and ctime trust true), and a failed read
of any flag is recovered locally by its default instead of failing the
call (git_diff_list_alloc is total in the configuration oracle). -/
theorem diff_caps_config_defaults :
    ∀ (cfg : String → Option Bool) (opts : Options),
      (git_diff_list_alloc cfg opts).caps.hasSymlinks
          = config_bool cfg "core.symlinks" true ∧
      (git_diff_list_alloc cfg opts).caps.assumeUnchanged
          = config_bool cfg "core.ignorestat" false ∧
      (git_diff_list_alloc cfg opts).caps.trustCtime
          = config_bool cfg "core.trustctime" true ∧
      (git_diff_list_alloc cfg opts).caps.trustModeBits
          = (config_bool cfg "core.filemode" true && !opts.ignoreFilemode) ∧
      (∀ name d, cfg name = none → config_bool cfg name d = d) := by
  intro cfg opts
  refine ⟨?_, ?_, ?_, ?_, ?_⟩ <;>
    first
      | (intro name d h
         simp [config_bool, h])
      | (unfold git_diff_list_alloc diff_caps_from_config
         by_cases hi : opts.ignoreFilemode <;>
           by_cases ht : opts.includeTypechangeTrees <;>
             simp [hi, ht])

/-- C8 witness: the defaults at a concrete always-failing configuration. -/
theorem diff_caps_config_defaults_witness :
    (git_diff_list_alloc (fun _ => none) (Options.mk false false false false
        false false false false false false false)).caps.hasSymlinks
      = config_bool (fun _ => none) "core.symlinks" true ∧
    config_bool (fun _ => none) "core.symlinks" true = true := by
  refine ⟨(diff_caps_config_defaults (fun _ => none) _).1, ?_⟩
  have h := (diff_caps_config_defaults (fun _ => none)
    (Options.mk false false false false false false false false false false false)).2.2.2.2
  exact h "core.symlinks" true rfl

end Git

namespace Git.Stash

/-! ## C9 and C10: stash callbacks -/

theorem update_index_cb_deleted_ret {env : StashEnv} {data : CbData}
    {index : List String} {delta : Delta}
    (hic : data.includeChanged = true) (hst : delta.status = .deleted) :
    (update_index_cb env data index delta).1 = -1 := by
  unfold update_index_cb
  rw [hst]
  simp only [hic]
  cases hfind : git_index_find index delta.newFile.path with
  | none => simp [hfind]
  | some pos =>
    cases hrem : git_index_remove index delta.newFile.path with
    | none => simp [hfind, hrem]
    | some idx2 => simp [hfind, hrem]

theorem git_diff_foreach_aborts {env : StashEnv} {data : CbData} {delta : Delta}
    (hic : data.includeChanged = true) (hst : delta.status = .deleted) :
    ∀ (deltas : List Delta) (index : List String), delta ∈ deltas →
      (git_diff_foreach env data index deltas).1 ≠ 0 := by
  intro deltas
  induction deltas with
  | nil => intro index h; simp at h
  | cons d rest ih =>
    intro index hmem
    unfold git_diff_foreach
    rcases List.mem_cons.mp hmem with h | h
    · subst h
      have hr := @update_index_cb_deleted_ret env data index _ hic hst
      simp [hr]
    · by_cases hr : (update_index_cb env data index d).1 ≠ 0
      · simp only [if_pos hr]
        exact hr
      · simp only [if_neg hr]
        exact ih _ h

/-- C9: while changed-entry inclusion is enabled, the deleted case of
update_index_cb finds and removes the path from the index and then falls
through into the unimplemented-status branch: the callback returns -1
(with the path removed), and any diff iteration visiting such a delta
aborts with a nonzero outcome. -/
theorem update_index_cb_deleted_errors
    (env : StashEnv) (data : CbData) (index : List String) (delta : Delta)
    (deltas : List Delta)
    (hic : data.includeChanged = true) (hst : delta.status = .deleted)
    (hmem : delta.newFile.path ∈ index) :
    update_index_cb env data index delta = (-1, index.erase delta.newFile.path) ∧
    (delta ∈ deltas → (git_diff_foreach env data index deltas).1 ≠ 0) := by
  constructor
  · unfold update_index_cb
    rw [hst]
    simp [hic, git_index_find, git_index_remove, hmem]
  · intro h
    exact git_diff_foreach_aborts hic hst deltas index h

end Git.Stash

namespace Git.Stash

/-- A concrete deleted delta for the C9 witness. -/
def c9Delta : Delta :=
  { status := .deleted
    oldFile := { path := "a.txt", oid := 1, size := 1, mode := 33188, validOid := true }
    newFile := { path := "a.txt", oid := 0, size := 0, mode := 0, validOid := true } }

/-- C9 witness: the deleted-case fallthrough at a concrete index and
delta. -/
theorem update_index_cb_deleted_errors_witness :
    update_index_cb ⟨fun idx p => some (idx ++ [p])⟩ ⟨true, false, false⟩
        ["a.txt", "b.txt"] c9Delta = (-1, ["b.txt"]) ∧
    (c9Delta ∈ [c9Delta] →
      (git_diff_foreach ⟨fun idx p => some (idx ++ [p])⟩ ⟨true, false, false⟩
        ["a.txt", "b.txt"] [c9Delta]).1 ≠ 0) := by
  have h := update_index_cb_deleted_errors ⟨fun idx p => some (idx ++ [p])⟩
    ⟨true, false, false⟩ ["a.txt", "b.txt"] c9Delta [c9Delta]
    rfl rfl (by decide)
  exact ⟨by simpa using h.1, h.2⟩

/-- C10: when the stash reference does not exist (lookup reports
not-found), git_stash_foreach returns success without a single callback
invocation, instead of propagating the lookup error. -/
theorem stash_foreach_missing_ref (repo : StashRepo)
    (callback : Nat → String → Nat → Bool)
    (h : repo.stashRef = .notFound) :
    git_stash_foreach repo callback = (0, []) := by
  unfold git_stash_foreach
  rw [h]

/-- C10 witness: a concrete repository with no stash reference. -/
theorem stash_foreach_missing_ref_witness :
    git_stash_foreach ⟨.notFound, some [⟨"msg", 5⟩]⟩ (fun _ _ _ => true) = (0, []) :=
  stash_foreach_missing_ref _ _ rfl

end Git.Stash

namespace Git

/-! ## Characterizations of the construction primitives -/

/-- The delta single-sided construction appends, written out explicitly:
the (post-remap) deleted status populates the old side, every other
status the new side; the old side's hash is always flagged valid, the new
side's when the status is deleted (its hash then being the known
all-zero) or the entry hash is nonzero. -/
def fromOneDeltaSpec (opts : Options) (status : DeltaT) (entry : Entry) : Delta :=
  let status := remapStatus opts.reverse status
  if status = .deleted then
    { status := status
      oldFile := { path := entry.path, oid := entry.oid, size := entry.fileSize,
                   mode := entry.mode, validOid := true }
      newFile := { path := entry.path, oid := 0, size := 0, mode := 0, validOid := true } }
  else
    { status := status
      oldFile := { path := entry.path, oid := 0, size := 0, mode := 0, validOid := true }
      newFile := { path := entry.path, oid := entry.oid, size := entry.fileSize,
                   mode := entry.mode, validOid := decide (entry.oid ≠ 0) } }

theorem from_one_delta_eq (opts : Options) (status : DeltaT) (entry : Entry) :
    diff_delta__from_one_delta opts status entry = fromOneDeltaSpec opts status entry := by
  unfold diff_delta__from_one_delta fromOneDeltaSpec diff_delta__alloc
  by_cases hd : remapStatus opts.reverse status = .deleted <;>
    by_cases ho : entry.oid = 0 <;>
      simp [hd, ho]

/-! ## C2: single-sided valid-hash flags -/

/-- Options with everything off except the listed inclusion flags; used by
the concrete runs below. -/
def mkOpts (rev incIgn incUntr incUnmod incTyc incTycTrees recurse : Bool) : Options :=
  { reverse := rev, includeIgnored := incIgn, includeUntracked := incUntr,
    includeUnmodified := incUnmod, includeTypechange := incTyc,
    includeTypechangeTrees := incTycTrees, recurseUntrackedDirs := recurse,
    disablePathspecMatch := false, ignoreSubmodules := false,
    ignoreFilemode := false, deltasAreIcase := false }

/-- Capability flags used by the concrete runs below. -/
def mkCaps (assume : Bool) : DiffCaps :=
  { hasSymlinks := true, assumeUnchanged := assume, trustModeBits := true,
    trustCtime := true, useDev := false }

/-- An environment whose pathspec accepts everything, whose hash provider
answers 99, and whose submodule provider finds nothing. -/
def allEnv : Env :=
  { pathspecMatch := fun _ _ _ => true
    oidForFile := fun _ => some 99
    subLookup := fun _ => none }

/-- A plain entry with the given path, hash and mode. -/
def mkEntry (p : String) (oid mode : Nat) : Entry :=
  { path := p, oid := oid, mode := mode, fileSize := 1, ctimeSeconds := 0,
    mtimeSeconds := 0, dev := 0, ino := 0, uid := 0, gid := 0,
    intentToAdd := false, skipWorktree := false }

/-- C2 counterexample: a deleted delta built by single-sided construction
carries the valid-hash flag on BOTH sides (the old side is always flagged,
and the deleted case flags the new side too), contradicting the claim that
only the old side carries it. -/
theorem from_one_flags_counterexample :
    ((diff_delta__from_one allEnv
        { opts := mkOpts false false false false false false false,
          caps := mkCaps false, deltas := [] } .deleted
        (mkEntry "a.txt" 5 33188)).deltas.map
      (fun d => (statusCode d.status, d.oldFile.validOid, d.newFile.validOid)))
      = [(2, true, true)] := by decide

/-- C2 as amended: for every delta appended by single-sided construction,
the old side's valid-hash flag is always set, and the new side's
valid-hash flag is set exactly when the (post-remap) status is deleted or
the entry's hash is nonzero; in particular a deleted delta carries the
flag on both sides, and an added/untracked/ignored delta carries it on
the old side always and on the new side exactly when the entry hash is
known. -/
theorem from_one_valid_oid_flags (env : Env) (st : DiffState) (status : DeltaT)
    (entry : Entry)
    (h1 : ¬(status = .ignored ∧ st.opts.includeIgnored = false))
    (h2 : ¬(status = .untracked ∧ st.opts.includeUntracked = false))
    (h3 : env.pathspecMatch entry.path st.opts.disablePathspecMatch
            st.opts.deltasAreIcase = true) :
    (diff_delta__from_one env st status entry).deltas
        = st.deltas ++ [diff_delta__from_one_delta st.opts status entry] ∧
    (diff_delta__from_one_delta st.opts status entry).oldFile.validOid = true ∧
    ((diff_delta__from_one_delta st.opts status entry).newFile.validOid = true ↔
      ((diff_delta__from_one_delta st.opts status entry).status = .deleted ∨
        entry.oid ≠ 0)) := by
  refine ⟨?_, ?_, ?_⟩
  · unfold diff_delta__from_one
    rw [if_neg h1, if_neg h2, if_neg (by simp [h3])]
  · rw [from_one_delta_eq]
    unfold fromOneDeltaSpec
    by_cases hd : remapStatus st.opts.reverse status = .deleted <;> simp [hd]
  · rw [from_one_delta_eq]
    unfold fromOneDeltaSpec
    by_cases hd : remapStatus st.opts.reverse status = .deleted <;>
      by_cases ho : entry.oid = 0 <;> simp [hd, ho]

/-- C2 witness: the amended flag rule at a concrete untracked entry with a
known hash. -/
theorem from_one_valid_oid_flags_witness :
    (diff_delta__from_one allEnv
        { opts := mkOpts false false true false false false false,
          caps := mkCaps false, deltas := [] } .untracked
        (mkEntry "u.txt" 9 33188)).deltas
      = [] ++ [diff_delta__from_one_delta (mkOpts false false true false false false false)
          .untracked (mkEntry "u.txt" 9 33188)] ∧
    (diff_delta__from_one_delta (mkOpts false false true false false false false)
        .untracked (mkEntry "u.txt" 9 33188)).oldFile.validOid = true := by
  have h := from_one_valid_oid_flags allEnv
    { opts := mkOpts false false true false false false false,
      caps := mkCaps false, deltas := [] } .untracked (mkEntry "u.txt" 9 33188)
    (by decide) (by decide) (by decide)
  exact ⟨h.1, h.2.1⟩

end Git

namespace Git

/-! ## C4: reverse symmetry -/

/-- The delta two-sided construction appends, written out explicitly:
under reverse the two entries and their modes swap and the override hash
lands on the old side (but the valid flag it implies still lands on the
new side). -/
def fromTwoDeltaSpec (opts : Options) (status : DeltaT)
    (o : Entry) (om : Nat) (n : Entry) (nm : Nat) (noid : Option Nat) : Delta :=
  if opts.reverse then
    { status := remapStatus opts.reverse status
      oldFile := { path := n.path, oid := noid.getD n.oid, size := n.fileSize,
                   mode := nm, validOid := true }
      newFile := { path := n.path, oid := o.oid, size := o.fileSize, mode := om,
                   validOid := noid.isSome || decide (o.oid ≠ 0) } }
  else
    { status := remapStatus opts.reverse status
      oldFile := { path := o.path, oid := o.oid, size := o.fileSize, mode := om,
                   validOid := true }
      newFile := { path := o.path, oid := noid.getD n.oid, size := n.fileSize,
                   mode := nm, validOid := noid.isSome || decide (n.oid ≠ 0) } }

theorem from_two_delta_eq (opts : Options) (status : DeltaT)
    (o : Entry) (om : Nat) (n : Entry) (nm : Nat) (noid : Option Nat) :
    diff_delta__from_two_delta opts status o om n nm noid
      = fromTwoDeltaSpec opts status o om n nm noid := by
  unfold diff_delta__from_two_delta fromTwoDeltaSpec diff_delta__alloc
  by_cases hr : opts.reverse <;> cases noid <;>
    by_cases ho : o.oid = 0 <;> by_cases hn : n.oid = 0 <;> simp [hr, ho, hn]

/-- The pointwise inverse of a delta: old and new sides swap, and added
and deleted swap. -/
def invStatus : DeltaT → DeltaT
  | .added => .deleted
  | .deleted => .added
  | s => s

def invDelta (d : Delta) : Delta :=
  { status := invStatus d.status, oldFile := d.newFile, newFile := d.oldFile }

/-- C4 counterexample: a matched pair whose mode type class changed, with
typechange reporting enabled, yields a single typechange delta in both
directions, and the two runs' delta lists are NOT identical (the reverse
run swaps the two sides of the typechange delta), contradicting the claim
that typechange deltas are identical between the two runs. -/
theorem reverse_identity_counterexample :
    ((diff_from_iterators allEnv .index false 10
        [.mk (mkEntry "p" 3 33188) false false []]
        [.mk (mkEntry "p" 5 40960) false false []] ""
        { opts := mkOpts false false false false true false false,
          caps := mkCaps false, deltas := [] }).map
      (fun s => s.deltas.map (·.status)) = some [.typechange]) ∧
    ((diff_from_iterators allEnv .index false 10
        [.mk (mkEntry "p" 3 33188) false false []]
        [.mk (mkEntry "p" 5 40960) false false []] ""
        { opts := mkOpts true false false false true false false,
          caps := mkCaps false, deltas := [] }).map
      (fun s => s.deltas.map (·.status)) = some [.typechange]) ∧
    (diff_from_iterators allEnv .index false 10
        [.mk (mkEntry "p" 3 33188) false false []]
        [.mk (mkEntry "p" 5 40960) false false []] ""
        { opts := mkOpts false false false false true false false,
          caps := mkCaps false, deltas := [] }).map (·.deltas)
      ≠ (diff_from_iterators allEnv .index false 10
        [.mk (mkEntry "p" 3 33188) false false []]
        [.mk (mkEntry "p" 5 40960) false false []] ""
        { opts := mkOpts true false false false true false false,
          caps := mkCaps false, deltas := [] }).map (·.deltas) := by
  decide

/-- C4 as amended: at the construction primitives, the reverse run builds
the pointwise inverse delta — not the identical delta — for every
two-sided status (modified, but equally unmodified and typechange) when
both hashes are known and the matched paths agree as strings, and for
single-sided deleted/added deltas when the entry hash is known; only the
single-sided ignored and untracked deltas are built identically in the
two directions. -/
theorem reverse_construction_symmetry (opts : Options) (hrev : opts.reverse = false)
    (e o n : Entry) (om nm : Nat) (noid : Option Nat) (status : DeltaT) :
    (e.oid ≠ 0 →
      diff_delta__from_one_delta { opts with reverse := true } .deleted e
        = invDelta (diff_delta__from_one_delta opts .deleted e)) ∧
    (e.oid ≠ 0 →
      diff_delta__from_one_delta { opts with reverse := true } .added e
        = invDelta (diff_delta__from_one_delta opts .added e)) ∧
    (diff_delta__from_one_delta { opts with reverse := true } .untracked e
        = diff_delta__from_one_delta opts .untracked e) ∧
    (diff_delta__from_one_delta { opts with reverse := true } .ignored e
        = diff_delta__from_one_delta opts .ignored e) ∧
    (status ≠ .added → status ≠ .deleted → o.path = n.path → o.oid ≠ 0 →
      (noid.isSome ∨ n.oid ≠ 0) →
      diff_delta__from_two_delta { opts with reverse := true } status o om n nm noid
        = invDelta (diff_delta__from_two_delta opts status o om n nm noid)) := by
  refine ⟨?_, ?_, ?_, ?_, ?_⟩
  · intro he
    rw [from_one_delta_eq, from_one_delta_eq]
    simp [fromOneDeltaSpec, remapStatus, hrev, invDelta, invStatus, he]
  · intro he
    rw [from_one_delta_eq, from_one_delta_eq]
    simp [fromOneDeltaSpec, remapStatus, hrev, invDelta, invStatus, he]
  · rw [from_one_delta_eq, from_one_delta_eq]
    simp [fromOneDeltaSpec, remapStatus, hrev]
  · rw [from_one_delta_eq, from_one_delta_eq]
    simp [fromOneDeltaSpec, remapStatus, hrev]
  · intro hsa hsd hpath ho hn
    rw [from_two_delta_eq, from_two_delta_eq]
    have hmap : remapStatus true status = status := by
      cases status <;> simp [remapStatus] at hsa hsd ⊢
    have hval : (noid.isSome || decide (n.oid ≠ 0)) = true := by
      rcases hn with h | h <;> simp [h]
    simp only [fromTwoDeltaSpec, remapStatus, hrev, invDelta, invStatus, hmap, hpath,
      hval, if_true, if_false, Bool.false_eq_true, ite_false, ite_true]
    simp [hmap, ho, hval]

/-- C4 witness: the amended symmetry at concrete entries. -/
theorem reverse_construction_symmetry_witness :
    diff_delta__from_one_delta
        { mkOpts false false false false false false false with reverse := true }
        .deleted (mkEntry "w.txt" 4 33188)
      = invDelta (diff_delta__from_one_delta
          (mkOpts false false false false false false false) .deleted
          (mkEntry "w.txt" 4 33188)) ∧
    diff_delta__from_two_delta
        { mkOpts false false false false false false false with reverse := true }
        .modified (mkEntry "w.txt" 4 33188) 33188 (mkEntry "w.txt" 6 33188) 33188 none
      = invDelta (diff_delta__from_two_delta
          (mkOpts false false false false false false false) .modified
          (mkEntry "w.txt" 4 33188) 33188 (mkEntry "w.txt" 6 33188) 33188 none) := by
  have h := reverse_construction_symmetry
    (mkOpts false false false false false false false) rfl
    (mkEntry "w.txt" 4 33188) (mkEntry "w.txt" 4 33188) (mkEntry "w.txt" 6 33188)
    33188 33188 none .modified
  exact ⟨h.1 (by decide), h.2.2.2.2 (by decide) (by decide) rfl (by decide)
    (Or.inr (by decide))⟩

end Git

namespace Git

/-! ## C5: type-class mismatch split -/

/-- C5 counterexample: with the reverse option set, the type-mismatch
split emits an ADDED delta carrying the old entry and a DELETED delta
carrying the new entry (the construction remap swaps them), so the claim
that the classifier emits "a deleted delta for the old entry and an added
delta for the new entry" fails for reverse runs: no deleted delta carries
the old entry's hash 11. -/
theorem type_split_reverse_counterexample :
    ((maybe_modified allEnv .workdir (mkEntry "p" 11 33188) (mkEntry "p" 22 40960)
        { opts := mkOpts true false false false false false false,
          caps := mkCaps false, deltas := [] }).map
      (fun s => s.deltas.map (fun d => (statusCode d.status, d.oldFile.oid, d.newFile.oid))))
      = some [(1, 0, 11), (2, 22, 0)] ∧
    ((maybe_modified allEnv .workdir (mkEntry "p" 11 33188) (mkEntry "p" 22 40960)
        { opts := mkOpts true false false false false false false,
          caps := mkCaps false, deltas := [] }).map
      (fun s => s.deltas.any (fun d => d.status == DeltaT.deleted && d.oldFile.oid == 11)))
      = some false := by
  decide

/-- C5 as amended: for a matched pair passing the pathspec test, not
short-circuited by assume-unchanged or skip-worktree, whose mode type
classes differ after workdir mode normalization: with typechange
reporting disabled and reverse not set, the classifier appends exactly
two single-sided deltas — a deleted delta carrying the old entry followed
by an added delta carrying the new entry — and returns without appending
any two-sided delta; with typechange reporting enabled it instead
proceeds to the final construction with tentative status typechange.
(With reverse set, the construction remap swaps which entry gets deleted
and added.) -/
theorem type_mismatch_split (env : Env) (t : IterType) (o n : Entry) (st : DiffState)
    (hps1 : env.pathspecMatch o.path st.opts.disablePathspecMatch
        st.opts.deltasAreIcase = true)
    (hps2 : env.pathspecMatch n.path st.opts.disablePathspecMatch
        st.opts.deltasAreIcase = true)
    (hassume : st.caps.assumeUnchanged = false)
    (hskip : o.skipWorktree = false)
    (htype : GIT_MODE_TYPE o.mode
        ≠ GIT_MODE_TYPE (workdir_mode_normalize st.caps (t == IterType.workdir)
            o.mode n.mode)) :
    (st.opts.includeTypechange = false → st.opts.reverse = false →
      maybe_modified env t o n st
        = some { st with deltas := st.deltas ++
            [diff_delta__from_one_delta st.opts .deleted o,
             diff_delta__from_one_delta st.opts .added n] } ∧
      (diff_delta__from_one_delta st.opts .deleted o).status = .deleted ∧
      (diff_delta__from_one_delta st.opts .added n).status = .added ∧
      (diff_delta__from_one_delta st.opts .deleted o).oldFile.oid = o.oid ∧
      (diff_delta__from_one_delta st.opts .added n).newFile.oid = n.oid) ∧
    (st.opts.includeTypechange = true →
      maybe_modified env t o n st
        = maybe_modified_finish env o o.mode n
            (workdir_mode_normalize st.caps (t == IterType.workdir) o.mode n.mode)
            st .typechange none) := by
  constructor
  · intro htc hrev
    have hcls : maybe_modified_classify env t o n st = .split := by
      unfold maybe_modified_classify
      simp only [hps1, Bool.true_eq_false, if_false]
      rw [if_neg (by simp [hassume]), if_neg (by simp [hskip]), if_pos htype,
        if_neg (by simp [htc])]
    refine ⟨?_, ?_, ?_, ?_, ?_⟩
    · simp only [maybe_modified, hcls]
      unfold diff_delta__from_one
      simp [hps1, hps2]
    · rw [from_one_delta_eq]; simp [fromOneDeltaSpec, remapStatus, hrev]
    · rw [from_one_delta_eq]; simp [fromOneDeltaSpec, remapStatus, hrev]
    · rw [from_one_delta_eq]; simp [fromOneDeltaSpec, remapStatus, hrev]
    · rw [from_one_delta_eq]; simp [fromOneDeltaSpec, remapStatus, hrev]
  · intro htc
    have hcls : maybe_modified_classify env t o n st = .finish .typechange none := by
      unfold maybe_modified_classify
      simp only [hps1, Bool.true_eq_false, if_false]
      rw [if_neg (by simp [hassume]), if_neg (by simp [hskip]), if_pos htype,
        if_pos (by simp [htc])]
    simp only [maybe_modified, hcls]

/-- C5 witness: the split at a concrete file-versus-symlink pair. -/
theorem type_mismatch_split_witness :
    maybe_modified allEnv .workdir (mkEntry "q" 11 33188) (mkEntry "q" 22 40960)
        { opts := mkOpts false false false false false false false,
          caps := mkCaps false, deltas := [] }
      = some { opts := mkOpts false false false false false false false,
               caps := mkCaps false,
               deltas := [] ++
                 [diff_delta__from_one_delta (mkOpts false false false false false false false)
                    .deleted (mkEntry "q" 11 33188),
                  diff_delta__from_one_delta (mkOpts false false false false false false false)
                    .added (mkEntry "q" 22 40960)] } := by
  have h := type_mismatch_split allEnv .workdir (mkEntry "q" 11 33188)
    (mkEntry "q" 22 40960)
    { opts := mkOpts false false false false false false false,
      caps := mkCaps false, deltas := [] }
    rfl rfl rfl rfl (by decide)
  exact (h.1 rfl rfl).1

end Git

namespace Git

/-! ## C6: racy heuristic -/

theorem workdir_mode_normalize_self (caps : DiffCaps) (w : Bool) (m : Nat) :
    workdir_mode_normalize caps w m m = m := by
  unfold workdir_mode_normalize
  have h1 : (S_ISLNK m && S_ISREG m) = false := by
    unfold S_ISLNK S_ISREG
    by_cases h : GIT_MODE_TYPE m = 40960 <;> simp [h]
  simp [h1]

theorem maybe_modified_finish_unmodified (env : Env) (o : Entry) (om : Nat)
    (n : Entry) (nm : Nat) (st : DiffState) :
    maybe_modified_finish env o om n nm st .unmodified none
      = some (diff_delta__from_two st .unmodified o om n nm none) := by
  unfold maybe_modified_finish
  simp

/-- C6 counterexample: a matched workdir pair with an unknown new hash and
identical stat metadata is nevertheless classified MODIFIED — and the
content-hash provider IS invoked (its answer 99 lands in the delta) —
when the assume-unchanged capability is on and the old entry carries the
intent-to-add flag, contradicting the claim for every such pair. -/
theorem racy_assume_unchanged_counterexample :
    ((maybe_modified allEnv .workdir
        { mkEntry "r" 7 33188 with intentToAdd := true } (mkEntry "r" 0 33188)
        { opts := mkOpts false false false false false false false,
          caps := mkCaps true, deltas := [] }).map
      (fun s => s.deltas.map (fun d => (statusCode d.status, d.newFile.oid))))
      = some [(3, 99)] := by
  decide

/-- C6 as amended: for a matched pair passing the pathspec test whose new
hash is unknown and whose new source is the working directory, with
mode, size, mtime seconds, inode, uid and gid equal, ctime seconds equal
whenever ctime trust is on, device numbers equal whenever the device
capability is on, and which is not short-circuited to modified by the
assume-unchanged capability on an intent-to-add entry, the classifier
yields the unmodified two-sided delta without consulting the
content-hash or submodule providers (the result is the same for every
oracle). -/
theorem racy_heuristic_unmodified (env : Env) (o n : Entry) (st : DiffState)
    (hps : env.pathspecMatch o.path st.opts.disablePathspecMatch
        st.opts.deltasAreIcase = true)
    (hnoid : n.oid = 0)
    (hshort : st.caps.assumeUnchanged = true → o.intentToAdd = false)
    (hm : o.mode = n.mode) (hsz : o.fileSize = n.fileSize)
    (hmt : o.mtimeSeconds = n.mtimeSeconds)
    (hct : st.caps.trustCtime = true → o.ctimeSeconds = n.ctimeSeconds)
    (hdev : st.caps.useDev = true → o.dev = n.dev)
    (hino : o.ino = n.ino) (huid : o.uid = n.uid) (hgid : o.gid = n.gid) :
    maybe_modified env .workdir o n st
      = some (diff_delta__from_two st .unmodified o o.mode n n.mode none) := by
  have hmm : workdir_mode_normalize st.caps ((IterType.workdir : IterType) == .workdir)
      o.mode n.mode = n.mode := by
    rw [← hm]
    exact workdir_mode_normalize_self _ _ _
  have hstat : stat_data_alike st.caps o n o.mode n.mode = true := by
    have h1 : (!st.caps.trustCtime || (o.ctimeSeconds == n.ctimeSeconds)) = true := by
      cases htc2 : st.caps.trustCtime
      · simp
      · simp [hct htc2]
    have h2 : (!st.caps.useDev || (o.dev == n.dev)) = true := by
      cases hd2 : st.caps.useDev
      · simp
      · simp [hdev hd2]
    unfold stat_data_alike
    simp [hm, hsz, hmt, hino, huid, hgid, h1, h2]
  have hcls : maybe_modified_classify env .workdir o n st = .finish .unmodified none := by
    unfold maybe_modified_classify
    simp only [hps, Bool.true_eq_false, if_false, hmm]
    by_cases ha : st.caps.assumeUnchanged = true
    · rw [if_pos (by simp [ha]), hshort ha]
      simp
    · rw [if_neg (by simp [ha])]
      by_cases hsw : o.skipWorktree = true
      · rw [if_pos (by simp [hsw])]
      · rw [if_neg (by simp [hsw]), if_neg (by rw [← hm]; simp)]
        by_cases ho : o.oid = 0
        · rw [if_pos ⟨by rw [ho, hnoid], hm⟩]
        · rw [if_neg (by rw [hnoid]; exact fun hc => ho hc.1),
            if_pos ⟨hnoid, by simp⟩, if_pos hstat]
  simp only [maybe_modified, hcls, hmm]
  rw [maybe_modified_finish_unmodified]

/-- C6 witness: the racy acceptance at a concrete pair with different
hashes but identical stat metadata. -/
theorem racy_heuristic_unmodified_witness :
    maybe_modified allEnv .workdir (mkEntry "s" 7 33188) (mkEntry "s" 0 33188)
        { opts := mkOpts false false false false false false false,
          caps := mkCaps false, deltas := [] }
      = some (diff_delta__from_two
          { opts := mkOpts false false false false false false false,
            caps := mkCaps false, deltas := [] }
          .unmodified (mkEntry "s" 7 33188) (mkEntry "s" 7 33188).mode
          (mkEntry "s" 0 33188) (mkEntry "s" 0 33188).mode none) :=
  racy_heuristic_unmodified allEnv (mkEntry "s" 7 33188) (mkEntry "s" 0 33188)
    { opts := mkOpts false false false false false false false,
      caps := mkCaps false, deltas := [] }
    rfl rfl (fun h => by simp [mkCaps] at h) rfl rfl rfl
    (fun _ => rfl) (fun h => by simp [mkCaps] at h) rfl rfl rfl

end Git

namespace Git

/-! ## C3: ignored-prefix propagation -/

/-- C3 counterexample: old has tracked "D/t"; the workdir has directory
"D" matching an ignore rule and containing the individually-non-ignored
file "D/f".  With include-ignored (and include-untracked) set, the run
recurses into "D" (it contains a tracked item), records it as the active
ignored prefix, and then skips "D/f" COMPLETELY: the only delta is the
deletion of "D/t", and no delta at all — in particular no ignored delta —
is emitted for "D/f", contradicting the claim. -/
theorem ignored_prefix_counterexample :
    ((diff_from_iterators allEnv .workdir false 10
        [.mk (mkEntry "D/t" 7 33188) false false []]
        [.mk (mkEntry "D" 0 16384) true false [.mk (mkEntry "D/f" 0 33188) false false []]]
        "" { opts := mkOpts false true true false false false false,
             caps := mkCaps false, deltas := [] }).map
      (fun s => s.deltas.map (fun d => (d.oldFile.path, statusCode d.status))))
      = some [("D/t", 2)] ∧
    ((diff_from_iterators allEnv .workdir false 10
        [.mk (mkEntry "D/t" 7 33188) false false []]
        [.mk (mkEntry "D" 0 16384) true false [.mk (mkEntry "D/f" 0 33188) false false []]]
        "" { opts := mkOpts false true true false false false false,
             caps := mkCaps false, deltas := [] }).map
      (fun s => s.deltas.any (fun d => d.oldFile.path == "D/f")))
      = some false := by
  decide

/-- C3 as amended: during a workdir comparison, every new-only
non-directory item whose path lies under the recorded ignored directory
prefix is skipped completely — the driver advances without emitting any
delta for it (even when include-ignored is set), instead of reporting it
ignored. -/
theorem ignored_prefix_skips_contained_file (env : Env) (newType : IterType)
    (icase : Bool) (fuel : Nat) (olds : List Item) (ni : Item) (nrest : List Item)
    (ignorePfx : String) (st : DiffState)
    (hold : match olds with
            | [] => True
            | oi :: _ => entrycomp icase oi.entry ni.entry > 0)
    (hpfx : ignorePfx.length ≠ 0)
    (hunder : pfxcomp icase ni.entry.path ignorePfx = 0)
    (hnd : S_ISDIR ni.entry.mode = false) :
    diff_from_iterators env newType icase (fuel + 1) olds (ni :: nrest) ignorePfx st
      = diff_from_iterators env newType icase fuel olds nrest ignorePfx st := by
  have hdt : newDeltaType0 icase ignorePfx ni.entry = .ignored := by
    unfold newDeltaType0
    rw [if_pos (by simp [hpfx, hunder])]
  cases olds with
  | nil =>
    conv_lhs => rw [diff_from_iterators]
    simp [hdt, hnd]
  | cons oi orest =>
    have hc : entrycomp icase oi.entry ni.entry > 0 := hold
    conv_lhs => rw [diff_from_iterators]
    rw [if_neg (by omega), if_pos hc]
    simp [hdt, hnd]

/-- C3 witness: the skip equation at a concrete state. -/
theorem ignored_prefix_skips_contained_file_witness :
    diff_from_iterators allEnv .workdir false 6
        [.mk (mkEntry "D/t" 7 33188) false false []]
        [.mk (mkEntry "D/f" 0 33188) false false []] "D"
        { opts := mkOpts false true true false false false false,
          caps := mkCaps false, deltas := [] }
      = diff_from_iterators allEnv .workdir false 5
        [.mk (mkEntry "D/t" 7 33188) false false []] [] "D"
        { opts := mkOpts false true true false false false false,
          caps := mkCaps false, deltas := [] } :=
  ignored_prefix_skips_contained_file allEnv .workdir false 5
    [.mk (mkEntry "D/t" 7 33188) false false []]
    (.mk (mkEntry "D/f" 0 33188) false false []) [] "D"
    { opts := mkOpts false true true false false false false,
      caps := mkCaps false, deltas := [] }
    (by decide) (by decide) (by decide) (by decide)

/-! ## C7: typechange patch-back of the last delta -/

/-- C7: the working directory replaced the old tree "sub/x" by a plain
file "sub"; typechange-as-tree-transition records are enabled and the new
path "sub" is a strict directory prefix of the old side's current path
"sub/x" (third conjunct), so by the claim — and by the code's own
comment, "this entry was a tree! convert to TYPECHANGE" — the delta just
appended for "sub" should be patched to typechange with a tree old mode.
It is not: the code looks the last delta up by the OLD item's hash (and
diff_delta__last_for_item has no case for untracked at all), so the
delta stays untracked with old mode 0 instead of 16384 (tree). -/
theorem typechange_patchback_bug_eval :
    ((diff_from_iterators allEnv .workdir false 10
        [.mk (mkEntry "sub/x" 7 33188) false false []]
        [.mk (mkEntry "sub" 0 33188) false false []] ""
        { opts := mkOpts false false true false true true false,
          caps := mkCaps false, deltas := [] }).map
      (fun s => s.deltas.map (fun d => (d.oldFile.path, statusCode d.status, d.oldFile.mode))))
      = some [("sub", 7, 0), ("sub/x", 2, 33188)] ∧
    entry_is_prefixed false (mkEntry "sub" 0 33188) (some (mkEntry "sub/x" 7 33188))
      = true ∧
    GIT_FILEMODE_TREE = 16384 := by
  decide

end Git

namespace Git

/-! ## C1: order of the delta collection -/

/-- All entry paths an iterator can ever surface, in surfacing order: each
item's own path followed by the paths inside it (advance_into_directory),
then its successors.  The ordering contract of an Entry Source is that
this sequence is strictly increasing under the negotiated comparator. -/
def flatPaths : List Item → List String
  | [] => []
  | .mk e _ _ cs :: rest => e.path :: (flatPaths cs ++ flatPaths rest)

/-- Well-formedness of an entry source: its surfacing order is strictly
increasing under the negotiated comparator. -/
def WfItems (icase : Bool) (l : List Item) : Prop :=
  (flatPaths l).Pairwise (fun a b => pathCmp icase a b < 0)

/-- The split pair a type-class mismatch appends at one path: first the
deleted-side delta, then the added-side delta (statuses swapped by the
construction remap under reverse), the second possibly upgraded to
typechange by a later patch-back. -/
def splitPair (rev : Bool) (d1 d2 : Delta) : Prop :=
  if rev then d1.status = .added ∧ (d2.status = .deleted ∨ d2.status = .typechange)
  else d1.status = .deleted ∧ (d2.status = .added ∨ d2.status = .typechange)

/-- The adjacency invariant of the delta collection: strictly increasing
in path under the negotiated comparator, except that the two halves of a
split share their path. -/
def goodPair (rev icase : Bool) (d1 d2 : Delta) : Prop :=
  pathCmp icase (deltaPath d1) (deltaPath d2) < 0 ∨
  (pathCmp icase (deltaPath d1) (deltaPath d2) = 0 ∧ splitPair rev d1 d2)

def SortedDeltas (rev icase : Bool) (deltas : List Delta) : Prop :=
  List.Chain' (goodPair rev icase) deltas

/-- Every delta of the collection lies strictly below every pending
path. -/
def DeltasBelow (icase : Bool) (deltas : List Delta) (ps : List String) : Prop :=
  ∀ d ∈ deltas, ∀ q ∈ ps, pathCmp icase (deltaPath d) q < 0

theorem flatPaths_cons (i : Item) (rest : List Item) :
    flatPaths (i :: rest) = i.entry.path :: (flatPaths i.contents ++ flatPaths rest) := by
  cases i
  simp [flatPaths, Item.entry, Item.contents]

theorem flatPaths_append (l1 l2 : List Item) :
    flatPaths (l1 ++ l2) = flatPaths l1 ++ flatPaths l2 := by
  induction l1 with
  | nil => simp [flatPaths]
  | cons i rest ih =>
    rw [List.cons_append, flatPaths_cons, flatPaths_cons, ih]
    simp

theorem below_mono {icase : Bool} {l : List Delta} {ps ps' : List String}
    (hsub : ∀ q ∈ ps', q ∈ ps) (h : DeltasBelow icase l ps) :
    DeltasBelow icase l ps' :=
  fun d hd q hq => h d hd q (hsub q hq)

theorem below_of_map_path_eq {icase : Bool} {l l' : List Delta} {ps : List String}
    (h : l'.map deltaPath = l.map deltaPath) (hb : DeltasBelow icase l ps) :
    DeltasBelow icase l' ps := by
  intro d hd q hq
  have hm : deltaPath d ∈ l'.map deltaPath := List.mem_map_of_mem _ hd
  rw [h] at hm
  obtain ⟨d0, hd0, hpath⟩ := List.mem_map.mp hm
  rw [← hpath]
  exact hb d0 hd0 q hq

theorem below_append {icase : Bool} {l L : List Delta} {ps : List String}
    (hl : DeltasBelow icase l ps) (hL : DeltasBelow icase L ps) :
    DeltasBelow icase (l ++ L) ps := by
  intro d hd q hq
  rcases List.mem_append.mp hd with h | h
  · exact hl d h q hq
  · exact hL d h q hq

theorem sorted_append {rev icase : Bool} {l L : List Delta} {ps : List String}
    (hs : SortedDeltas rev icase l) (hb : DeltasBelow icase l ps)
    (hL : List.Chain' (goodPair rev icase) L)
    (hmem : ∀ d ∈ L, deltaPath d ∈ ps) :
    SortedDeltas rev icase (l ++ L) := by
  rw [SortedDeltas, List.chain'_append]
  refine ⟨hs, hL, ?_⟩
  intro x hx y hy
  have hxl : x ∈ l := List.mem_of_mem_getLast? hx
  have hyL : y ∈ L := List.mem_of_mem_head? hy
  exact Or.inl (hb x hxl (deltaPath y) (hmem y hyL))

end Git

namespace Git

/-! ### Shape lemmas for the construction primitives -/

theorem from_one_delta_path (opts : Options) (s : DeltaT) (e : Entry) :
    deltaPath (diff_delta__from_one_delta opts s e) = e.path := by
  rw [from_one_delta_eq]
  unfold fromOneDeltaSpec deltaPath
  by_cases h : remapStatus opts.reverse s = .deleted <;> simp [h]

theorem from_one_delta_status (opts : Options) (s : DeltaT) (e : Entry) :
    (diff_delta__from_one_delta opts s e).status = remapStatus opts.reverse s := by
  rw [from_one_delta_eq]
  unfold fromOneDeltaSpec
  by_cases h : remapStatus opts.reverse s = .deleted <;> simp [h]

theorem from_two_delta_path (opts : Options) (status : DeltaT)
    (o : Entry) (om : Nat) (n : Entry) (nm : Nat) (noid : Option Nat) :
    deltaPath (diff_delta__from_two_delta opts status o om n nm noid)
      = if opts.reverse then n.path else o.path := by
  rw [from_two_delta_eq]
  unfold fromTwoDeltaSpec deltaPath
  split <;> rfl

theorem from_one_cases (env : Env) (st : DiffState) (s : DeltaT) (e : Entry) :
    diff_delta__from_one env st s e = st ∨
    diff_delta__from_one env st s e
      = { st with deltas := st.deltas ++ [diff_delta__from_one_delta st.opts s e] } := by
  unfold diff_delta__from_one
  split
  · exact Or.inl rfl
  split
  · exact Or.inl rfl
  split
  · exact Or.inl rfl
  · exact Or.inr rfl

theorem from_two_cases (st : DiffState) (status : DeltaT) (o : Entry) (om : Nat)
    (n : Entry) (nm : Nat) (noid : Option Nat) :
    diff_delta__from_two st status o om n nm noid = st ∨
    diff_delta__from_two st status o om n nm noid
      = { st with deltas := st.deltas ++
            [diff_delta__from_two_delta st.opts status o om n nm noid] } := by
  unfold diff_delta__from_two
  split
  · exact Or.inl rfl
  · exact Or.inr rfl

/-! ### Patch-back lemmas -/

theorem patchLast_map_path (item : Entry) (f : Delta → Delta)
    (hf : ∀ d, deltaPath (f d) = deltaPath d) :
    ∀ l : List Delta, (patchLastForItem item f l).map deltaPath = l.map deltaPath := by
  intro l
  induction l with
  | nil => rfl
  | cons d rest ih =>
    cases rest with
    | nil =>
      unfold patchLastForItem
      split
      · simp [hf]
      · rfl
    | cons d2 rest2 =>
      unfold patchLastForItem
      simpa using ih

theorem goodPair_patch {rev icase : Bool} {d1 d2 : Delta} (f : Delta → Delta)
    (hfp : ∀ d, deltaPath (f d) = deltaPath d)
    (hfs : ∀ d, (f d).status = .typechange)
    (h : goodPair rev icase d1 d2) : goodPair rev icase d1 (f d2) := by
  unfold goodPair at *
  rw [hfp]
  rcases h with h | ⟨h0, hsp⟩
  · exact Or.inl h
  · refine Or.inr ⟨h0, ?_⟩
    unfold splitPair at *
    cases rev <;> simp_all

theorem patchLast_sorted {rev icase : Bool} (item : Entry) (f : Delta → Delta)
    (hfp : ∀ d, deltaPath (f d) = deltaPath d)
    (hfs : ∀ d, (f d).status = .typechange) :
    ∀ l : List Delta, SortedDeltas rev icase l →
      SortedDeltas rev icase (patchLastForItem item f l) := by
  intro l
  induction l with
  | nil => intro h; exact h
  | cons d rest ih =>
    cases rest with
    | nil =>
      intro h
      unfold patchLastForItem
      split <;> simp [SortedDeltas]
    | cons d2 rest2 =>
      intro h
      rw [SortedDeltas, List.chain'_cons] at h
      obtain ⟨h12, hrest⟩ := h
      have ih2 := ih hrest
      have heq : patchLastForItem item f (d :: d2 :: rest2)
          = d :: patchLastForItem item f (d2 :: rest2) := rfl
      rw [SortedDeltas, heq, List.chain'_cons']
      refine ⟨?_, ih2⟩
      intro y hy
      cases rest2 with
      | nil =>
        by_cases hm : last_for_item_matches d2 item
        · have he2 : patchLastForItem item f [d2] = [f d2] := by
            unfold patchLastForItem
            rw [if_pos hm]
          rw [he2] at hy
          simp only [List.head?_cons, Option.mem_def, Option.some.injEq] at hy
          subst hy
          exact goodPair_patch f hfp hfs h12
        · have he2 : patchLastForItem item f [d2] = [d2] := by
            unfold patchLastForItem
            rw [if_neg hm]
          rw [he2] at hy
          simp only [List.head?_cons, Option.mem_def, Option.some.injEq] at hy
          subst hy
          exact h12
      | cons d3 rest3 =>
        have he2 : patchLastForItem item f (d2 :: d3 :: rest3)
            = d2 :: patchLastForItem item f (d3 :: rest3) := rfl
        rw [he2] at hy
        simp only [List.head?_cons, Option.mem_def, Option.some.injEq] at hy
        subst hy
        exact h12

theorem patchNewTree_path (d : Delta) : deltaPath (patchNewTree d) = deltaPath d := rfl

theorem patchNewTree_status (d : Delta) : (patchNewTree d).status = .typechange := rfl

theorem patchOldTree_path (d : Delta) : deltaPath (patchOldTree d) = deltaPath d := rfl

theorem patchOldTree_status (d : Delta) : (patchOldTree d).status = .typechange := rfl

end Git

namespace Git

/-! ### Shape of the classifier's appends -/

theorem finish_shape {env : Env} {o : Entry} {om : Nat} {n : Entry} {nm : Nat}
    {st : DiffState} {status : DeltaT} {noid : Option Nat} {st' : DiffState}
    (h : maybe_modified_finish env o om n nm st status noid = some st') :
    ∃ s2 no2, st' = diff_delta__from_two st s2 o om n nm no2 := by
  unfold maybe_modified_finish at h
  split at h
  · cases hno : noid with
    | some v =>
      rw [hno] at h
      simp only [Option.some.injEq] at h
      exact ⟨_, _, h.symm⟩
    | none =>
      rw [hno] at h
      cases hof : env.oidForFile n with
      | none => rw [hof] at h; simp at h
      | some v =>
        rw [hof] at h
        simp only [Option.some.injEq] at h
        exact ⟨_, _, h.symm⟩
  · simp only [Option.some.injEq] at h
    exact ⟨_, _, h.symm⟩

/-- What a successful classifier call does to the state: options and caps
are untouched, and the delta collection is extended by nothing, by one
delta whose path is the matched pair's (post-swap) path, or by the split
pair. -/
theorem maybe_modified_shape {env : Env} {t : IterType} {o n : Entry}
    {st st' : DiffState}
    (h : maybe_modified env t o n st = some st') :
    st'.opts = st.opts ∧ st'.caps = st.caps ∧
    ∃ L, st'.deltas = st.deltas ++ L ∧
      (∀ d ∈ L, deltaPath d = o.path ∨ deltaPath d = n.path) ∧
      (L = [] ∨ (∃ d, L = [d]) ∨
        L = [diff_delta__from_one_delta st.opts .deleted o,
             diff_delta__from_one_delta st.opts .added n]) := by
  have htwo : ∀ (s2 : DeltaT) (om nm : Nat) (no2 : Option Nat),
      st' = diff_delta__from_two st s2 o om n nm no2 →
      st'.opts = st.opts ∧ st'.caps = st.caps ∧
      ∃ L, st'.deltas = st.deltas ++ L ∧
        (∀ d ∈ L, deltaPath d = o.path ∨ deltaPath d = n.path) ∧
        (L = [] ∨ (∃ d, L = [d]) ∨
          L = [diff_delta__from_one_delta st.opts .deleted o,
               diff_delta__from_one_delta st.opts .added n]) := by
    intro s2 om nm no2 he
    rcases from_two_cases st s2 o om n nm no2 with hc | hc <;> rw [hc] at he <;> subst he
    · exact ⟨rfl, rfl, [], by simp, by simp, Or.inl rfl⟩
    · refine ⟨rfl, rfl, [diff_delta__from_two_delta st.opts s2 o om n nm no2],
        rfl, ?_, Or.inr (Or.inl ⟨_, rfl⟩)⟩
      intro d hd
      simp only [List.mem_singleton] at hd
      subst hd
      rw [from_two_delta_path]
      split
      · exact Or.inr rfl
      · exact Or.inl rfl
  cases hcls : maybe_modified_classify env t o n st with
  | skip =>
    simp only [maybe_modified, hcls, Option.some.injEq] at h
    subst h
    exact ⟨rfl, rfl, [], by simp, by simp, Or.inl rfl⟩
  | err =>
    simp [maybe_modified, hcls] at h
  | split =>
    simp only [maybe_modified, hcls, Option.some.injEq] at h
    rcases from_one_cases env st .deleted o with h1 | h1 <;>
      rw [h1] at h
    · rcases from_one_cases env st .added n with h2 | h2 <;>
        rw [h2] at h <;> subst h
      · exact ⟨rfl, rfl, [], by simp, by simp, Or.inl rfl⟩
      · refine ⟨rfl, rfl, [diff_delta__from_one_delta st.opts .added n],
          rfl, ?_, Or.inr (Or.inl ⟨_, rfl⟩)⟩
        intro d hd
        simp only [List.mem_singleton] at hd
        subst hd
        exact Or.inr (from_one_delta_path _ _ _)
    · rcases from_one_cases env
          { st with deltas := st.deltas ++ [diff_delta__from_one_delta st.opts .deleted o] }
          .added n with h2 | h2 <;>
        rw [h2] at h <;> subst h
      · refine ⟨rfl, rfl, [diff_delta__from_one_delta st.opts .deleted o],
          rfl, ?_, Or.inr (Or.inl ⟨_, rfl⟩)⟩
        intro d hd
        simp only [List.mem_singleton] at hd
        subst hd
        exact Or.inl (from_one_delta_path _ _ _)
      · refine ⟨rfl, rfl, [diff_delta__from_one_delta st.opts .deleted o,
          diff_delta__from_one_delta st.opts .added n], by simp, ?_,
          Or.inr (Or.inr rfl)⟩
        intro d hd
        rcases List.mem_cons.mp hd with hd | hd
        · subst hd
          exact Or.inl (from_one_delta_path _ _ _)
        · simp only [List.mem_singleton] at hd
          subst hd
          exact Or.inr (from_one_delta_path _ _ _)
  | finish s2 nd =>
    simp only [maybe_modified, hcls] at h
    obtain ⟨s3, no3, he⟩ := finish_shape h
    exact htwo s3 _ _ no3 he

end Git

namespace Git

/-! ### Order preservation of the driver steps -/

theorem append_one_ok {rev icase : Bool} {l : List Delta} {d : Delta}
    {ps : List String} (p : String)
    (hs : SortedDeltas rev icase l) (hb : DeltasBelow icase l (p :: ps))
    (hd : deltaPath d = p) (hlt : ∀ q ∈ ps, pathCmp icase p q < 0) :
    SortedDeltas rev icase (l ++ [d]) ∧ DeltasBelow icase (l ++ [d]) ps := by
  constructor
  · refine sorted_append hs hb ?_ ?_
    · simp [List.chain'_singleton]
    · intro d2 hd2
      simp only [List.mem_singleton] at hd2
      subst hd2
      rw [hd]
      exact List.mem_cons_self _ _
  · refine below_append (below_mono (fun q hq => List.mem_cons_of_mem _ hq) hb) ?_
    intro d2 hd2 q hq
    simp only [List.mem_singleton] at hd2
    subst hd2
    rw [hd]
    exact hlt q hq

theorem patch_preserves {rev icase : Bool} (item : Entry) (f : Delta → Delta)
    (hfp : ∀ d, deltaPath (f d) = deltaPath d)
    (hfs : ∀ d, (f d).status = .typechange) {l : List Delta} {ps : List String}
    (hs : SortedDeltas rev icase l) (hb : DeltasBelow icase l ps) :
    SortedDeltas rev icase (patchLastForItem item f l) ∧
    DeltasBelow icase (patchLastForItem item f l) ps :=
  ⟨patchLast_sorted item f hfp hfs l hs,
   below_of_map_path_eq (patchLast_map_path item f hfp l) hb⟩

theorem oldOnlyStep_ok (env : Env) (icase : Bool) (o : Entry) (nopt : Option Entry)
    (st : DiffState) (ps : List String)
    (hb : DeltasBelow icase st.deltas (o.path :: ps))
    (hs : SortedDeltas st.opts.reverse icase st.deltas)
    (hlt : ∀ q ∈ ps, pathCmp icase o.path q < 0) :
    (oldOnlyStep env icase o nopt st).opts = st.opts ∧
    (oldOnlyStep env icase o nopt st).caps = st.caps ∧
    SortedDeltas st.opts.reverse icase (oldOnlyStep env icase o nopt st).deltas ∧
    DeltasBelow icase (oldOnlyStep env icase o nopt st).deltas ps := by
  have h1 : SortedDeltas st.opts.reverse icase (diff_delta__from_one env st .deleted o).deltas ∧
      DeltasBelow icase (diff_delta__from_one env st .deleted o).deltas ps ∧
      (diff_delta__from_one env st .deleted o).opts = st.opts ∧
      (diff_delta__from_one env st .deleted o).caps = st.caps := by
    rcases from_one_cases env st .deleted o with hc | hc <;> rw [hc]
    · exact ⟨hs, below_mono (fun q hq => List.mem_cons_of_mem _ hq) hb, rfl, rfl⟩
    · have := append_one_ok o.path hs hb
        (from_one_delta_path st.opts .deleted o) hlt
      exact ⟨this.1, this.2, rfl, rfl⟩
  unfold oldOnlyStep
  split
  · have hp := patch_preserves o patchNewTree
      patchNewTree_path patchNewTree_status h1.1 h1.2.1
    exact ⟨h1.2.2.1, h1.2.2.2, hp.1, hp.2⟩
  · exact ⟨h1.2.2.1, h1.2.2.2, h1.1, h1.2.1⟩

theorem newOnlyEmit_ok (env : Env) (icase : Bool) (dt : DeltaT) (n : Entry)
    (oitemOpt : Option Entry) (st : DiffState) (ps : List String)
    (hb : DeltasBelow icase st.deltas (n.path :: ps))
    (hs : SortedDeltas st.opts.reverse icase st.deltas)
    (hlt : ∀ q ∈ ps, pathCmp icase n.path q < 0) :
    (newOnlyEmit env icase dt n oitemOpt st).opts = st.opts ∧
    (newOnlyEmit env icase dt n oitemOpt st).caps = st.caps ∧
    SortedDeltas st.opts.reverse icase (newOnlyEmit env icase dt n oitemOpt st).deltas ∧
    DeltasBelow icase (newOnlyEmit env icase dt n oitemOpt st).deltas ps := by
  have h1 : SortedDeltas st.opts.reverse icase (diff_delta__from_one env st dt n).deltas ∧
      DeltasBelow icase (diff_delta__from_one env st dt n).deltas ps ∧
      (diff_delta__from_one env st dt n).opts = st.opts ∧
      (diff_delta__from_one env st dt n).caps = st.caps := by
    rcases from_one_cases env st dt n with hc | hc <;> rw [hc]
    · exact ⟨hs, below_mono (fun q hq => List.mem_cons_of_mem _ hq) hb, rfl, rfl⟩
    · have := append_one_ok n.path hs hb
        (from_one_delta_path st.opts dt n) hlt
      exact ⟨this.1, this.2, rfl, rfl⟩
  unfold newOnlyEmit
  cases oitemOpt with
  | none => exact ⟨h1.2.2.1, h1.2.2.2, h1.1, h1.2.1⟩
  | some o2 =>
    dsimp only
    split
    · have hp := patch_preserves o2 patchOldTree
        patchOldTree_path patchOldTree_status h1.1 h1.2.1
      exact ⟨h1.2.2.1, h1.2.2.2, hp.1, hp.2⟩
    · exact ⟨h1.2.2.1, h1.2.2.2, h1.1, h1.2.1⟩

end Git

namespace Git

theorem pathCmp_zero_symm {icase : Bool} {a b : String}
    (h : pathCmp icase a b = 0) : pathCmp icase b a = 0 := by
  unfold pathCmp at *
  rw [strcmpChars_neg]
  omega

theorem wf_tail_wf {icase : Bool} {i : Item} {rest : List Item}
    (h : WfItems icase (i :: rest)) : WfItems icase (i.contents ++ rest) := by
  unfold WfItems at *
  rw [flatPaths_append]
  rw [flatPaths_cons] at h
  exact (List.pairwise_cons.mp h).2

theorem wf_drop {icase : Bool} {i : Item} {rest : List Item}
    (h : WfItems icase (i :: rest)) : WfItems icase rest := by
  unfold WfItems at *
  rw [flatPaths_cons] at h
  exact ((List.pairwise_cons.mp h).2).sublist (List.sublist_append_right _ _)

theorem wf_head_lt {icase : Bool} {i : Item} {rest : List Item}
    (h : WfItems icase (i :: rest)) :
    ∀ q ∈ flatPaths i.contents ++ flatPaths rest, pathCmp icase i.entry.path q < 0 := by
  unfold WfItems at h
  rw [flatPaths_cons] at h
  exact (List.pairwise_cons.mp h).1

theorem lt_flat_of_lt_head {icase : Bool} {p : String} {i : Item} {rest : List Item}
    (hw : WfItems icase (i :: rest))
    (hp : pathCmp icase p i.entry.path < 0) :
    ∀ q ∈ flatPaths (i :: rest), pathCmp icase p q < 0 := by
  intro q hq
  rw [flatPaths_cons] at hq
  rcases List.mem_cons.mp hq with hq1 | hq2
  · rw [hq1]
    exact hp
  · exact pathCmp_lt_trans hp (wf_head_lt hw q hq2)

theorem eq_flat_lt_head {icase : Bool} {p : String} {i : Item} {rest : List Item}
    (hw : WfItems icase (i :: rest))
    (hp : pathCmp icase p i.entry.path = 0) :
    ∀ q ∈ flatPaths i.contents ++ flatPaths rest, pathCmp icase p q < 0 :=
  fun q hq => pathCmp_zero_lt_trans hp (wf_head_lt hw q hq)

end Git

namespace Git

theorem head_mem_flat (i : Item) (rest : List Item) :
    i.entry.path ∈ flatPaths (i :: rest) := by
  rw [flatPaths_cons]
  exact List.mem_cons_self _ _

theorem mem_flat_rest {i : Item} {rest : List Item} {q : String}
    (h : q ∈ flatPaths rest) : q ∈ flatPaths (i :: rest) := by
  rw [flatPaths_cons]
  exact List.mem_cons_of_mem _ (List.mem_append_right _ h)

theorem mem_flat_sub {i : Item} {rest : List Item} {q : String}
    (h : q ∈ flatPaths i.contents ++ flatPaths rest) : q ∈ flatPaths (i :: rest) := by
  rw [flatPaths_cons]
  exact List.mem_cons_of_mem _ h

/-- The central order invariant of a run: starting from a state whose
collection is sorted and entirely below the pending paths of two
well-formed sources, a successful run leaves the options untouched and
the collection sorted (strictly increasing in path, except that the two
halves of a type split share one path). -/
theorem diff_run_sorted (env : Env) (newType : IterType) (icase : Bool) :
    ∀ (fuel : Nat) (olds news : List Item) (pfx : String) (st st' : DiffState),
      WfItems icase olds → WfItems icase news →
      DeltasBelow icase st.deltas (flatPaths olds ++ flatPaths news) →
      SortedDeltas st.opts.reverse icase st.deltas →
      diff_from_iterators env newType icase fuel olds news pfx st = some st' →
      st'.opts = st.opts ∧ SortedDeltas st.opts.reverse icase st'.deltas := by
  intro fuel
  induction fuel with
  | zero =>
    intro olds news pfx st st' _ _ _ _ h
    simp [diff_from_iterators] at h
  | succ fuel ih =>
    intro olds news pfx st st' hwo hwn hb hs h
    cases olds with
    | nil =>
      cases news with
      | nil =>
        simp only [diff_from_iterators, Option.some.injEq] at h
        subst h
        exact ⟨rfl, hs⟩
      | cons ni nrest =>
        simp only [diff_from_iterators] at h
        split at h
        · split at h
          · -- descend into the directory
            have hok := ih [] (ni.contents ++ nrest) _ st st'
              (by simp [WfItems, flatPaths]) (wf_tail_wf hwn)
              (below_mono (by
                intro q hq
                simp only [flatPaths, List.nil_append] at hq ⊢
                rw [flatPaths_append] at hq
                exact mem_flat_sub hq) hb)
              hs h
            exact hok
          · -- directory not recursed: emit
            have hok := newOnlyEmit_ok env icase (newDeltaType0 icase pfx ni.entry)
              ni.entry none st
              (flatPaths ([] : List Item) ++ flatPaths nrest)
              (below_mono (by
                intro q hq
                rcases List.mem_cons.mp hq with hq | hq
                · rw [hq]
                  exact List.mem_append_right _ (head_mem_flat _ _)
                · simp only [flatPaths, List.nil_append] at hq ⊢
                  exact mem_flat_rest hq) hb)
              hs
              (by
                intro q hq
                simp only [flatPaths, List.nil_append] at hq
                exact wf_head_lt hwn q (List.mem_append_right _ hq))
            obtain ⟨ho1, hc1, hs1, hb1⟩ := hok
            have hres := ih [] nrest _ _ st' (by simp [WfItems, flatPaths])
              (wf_drop hwn) hb1 (by rw [ho1]; exact hs1) h
            rw [ho1] at hres
            exact hres
        · split at h
          · -- under the ignored prefix: skipped completely
            exact ih [] nrest _ st st' (by simp [WfItems, flatPaths]) (wf_drop hwn)
              (below_mono (by
                intro q hq
                simp only [flatPaths, List.nil_append] at hq ⊢
                exact mem_flat_rest hq) hb)
              hs h
          · -- ordinary emit
            have hok := newOnlyEmit_ok env icase
              (newDeltaTypeFile newType ni.ignoredFlag (newDeltaType0 icase pfx ni.entry))
              ni.entry none st
              (flatPaths ([] : List Item) ++ flatPaths nrest)
              (below_mono (by
                intro q hq
                rcases List.mem_cons.mp hq with hq | hq
                · rw [hq]
                  exact List.mem_append_right _ (head_mem_flat _ _)
                · simp only [flatPaths, List.nil_append] at hq ⊢
                  exact mem_flat_rest hq) hb)
              hs
              (by
                intro q hq
                simp only [flatPaths, List.nil_append] at hq
                exact wf_head_lt hwn q (List.mem_append_right _ hq))
            obtain ⟨ho1, hc1, hs1, hb1⟩ := hok
            have hres := ih [] nrest _ _ st' (by simp [WfItems, flatPaths])
              (wf_drop hwn) hb1 (by rw [ho1]; exact hs1) h
            rw [ho1] at hres
            exact hres
    | cons oi orest =>
      cases news with
      | nil =>
        simp only [diff_from_iterators] at h
        have hok := oldOnlyStep_ok env icase oi.entry none st
          (flatPaths orest ++ flatPaths ([] : List Item))
          (below_mono (by
            intro q hq
            rcases List.mem_cons.mp hq with hq | hq
            · rw [hq]
              exact List.mem_append_left _ (head_mem_flat _ _)
            · simp only [flatPaths, List.append_nil] at hq ⊢
              exact mem_flat_rest hq) hb)
          hs
          (by
            intro q hq
            simp only [flatPaths, List.append_nil] at hq
            exact wf_head_lt hwo q (List.mem_append_right _ hq))
        obtain ⟨ho1, hc1, hs1, hb1⟩ := hok
        have hres := ih orest [] _ _ st' (wf_drop hwo) (by simp [WfItems, flatPaths])
          hb1 (by rw [ho1]; exact hs1) h
        rw [ho1] at hres
        exact hres
      | cons ni nrest =>
        simp only [diff_from_iterators] at h
        by_cases hc1 : entrycomp icase oi.entry ni.entry < 0
        · rw [if_pos hc1] at h
          -- old-only
          have hok := oldOnlyStep_ok env icase oi.entry (some ni.entry) st
            (flatPaths orest ++ flatPaths (ni :: nrest))
            (below_mono (by
              intro q hq
              rcases List.mem_cons.mp hq with hq | hq
              · rw [hq]
                exact List.mem_append_left _ (head_mem_flat _ _)
              · rcases List.mem_append.mp hq with hq | hq
                · exact List.mem_append_left _ (mem_flat_rest hq)
                · exact List.mem_append_right _ hq) hb)
            hs
            (by
              intro q hq
              rcases List.mem_append.mp hq with hq | hq
              · exact wf_head_lt hwo q (List.mem_append_right _ hq)
              · exact lt_flat_of_lt_head hwn hc1 q hq)
          obtain ⟨ho1, hcp1, hs1, hb1⟩ := hok
          have hres := ih orest (ni :: nrest) _ _ st' (wf_drop hwo) hwn
            hb1 (by rw [ho1]; exact hs1) h
          rw [ho1] at hres
          exact hres
        · rw [if_neg hc1] at h
          by_cases hc2 : entrycomp icase oi.entry ni.entry > 0
          · rw [if_pos hc2] at h
            have hnlt : pathCmp icase ni.entry.path oi.entry.path < 0 :=
              pathCmp_gt_asym hc2
            have hbsub : DeltasBelow icase st.deltas
                (ni.entry.path :: (flatPaths (oi :: orest) ++ flatPaths nrest)) :=
              below_mono (by
                intro q hq
                rcases List.mem_cons.mp hq with hq | hq
                · rw [hq]
                  exact List.mem_append_right _ (head_mem_flat _ _)
                · rcases List.mem_append.mp hq with hq | hq
                  · exact List.mem_append_left _ hq
                  · exact List.mem_append_right _ (mem_flat_rest hq)) hb
            have hltall : ∀ q ∈ flatPaths (oi :: orest) ++ flatPaths nrest,
                pathCmp icase ni.entry.path q < 0 := by
              intro q hq
              rcases List.mem_append.mp hq with hq | hq
              · exact lt_flat_of_lt_head hwo hnlt q hq
              · exact wf_head_lt hwn q (List.mem_append_right _ hq)
            split at h
            · split at h
              · -- descend
                exact ih (oi :: orest) (ni.contents ++ nrest) _ st st'
                  hwo (wf_tail_wf hwn)
                  (below_mono (by
                    intro q hq
                    rcases List.mem_append.mp hq with hq | hq
                    · exact List.mem_append_left _ hq
                    · rw [flatPaths_append] at hq
                      exact List.mem_append_right _ (mem_flat_sub hq)) hb)
                  hs h
              · -- directory not recursed: emit
                have hok := newOnlyEmit_ok env icase
                  (newDeltaType0 icase pfx ni.entry) ni.entry (some oi.entry) st
                  (flatPaths (oi :: orest) ++ flatPaths nrest) hbsub hs hltall
                obtain ⟨ho1, hcp1, hs1, hb1⟩ := hok
                have hres := ih (oi :: orest) nrest _ _ st' hwo (wf_drop hwn)
                  hb1 (by rw [ho1]; exact hs1) h
                rw [ho1] at hres
                exact hres
            · split at h
              · -- under the ignored prefix: skipped completely
                exact ih (oi :: orest) nrest _ st st' hwo (wf_drop hwn)
                  (below_mono (by
                    intro q hq
                    rcases List.mem_append.mp hq with hq | hq
                    · exact List.mem_append_left _ hq
                    · exact List.mem_append_right _ (mem_flat_rest hq)) hb)
                  hs h
              · -- ordinary emit
                have hok := newOnlyEmit_ok env icase
                  (newDeltaTypeFile newType ni.ignoredFlag (newDeltaType0 icase pfx ni.entry))
                  ni.entry (some oi.entry) st
                  (flatPaths (oi :: orest) ++ flatPaths nrest) hbsub hs hltall
                obtain ⟨ho1, hcp1, hs1, hb1⟩ := hok
                have hres := ih (oi :: orest) nrest _ _ st' hwo (wf_drop hwn)
                  hb1 (by rw [ho1]; exact hs1) h
                rw [ho1] at hres
                exact hres
          · -- matched pair
            rw [if_neg hc2] at h
            have hc0 : entrycomp icase oi.entry ni.entry = 0 := by omega
            have hc0n : pathCmp icase ni.entry.path oi.entry.path = 0 :=
              pathCmp_zero_symm hc0
            cases hmb : maybe_modified env newType oi.entry ni.entry st with
            | none => rw [hmb] at h; simp at h
            | some st2 =>
              rw [hmb] at h
              obtain ⟨hopts, hcaps, L, hdel, hpaths, hLcases⟩ := maybe_modified_shape hmb
              have hchainL : List.Chain' (goodPair st.opts.reverse icase) L := by
                rcases hLcases with h0 | ⟨d, h1⟩ | h2
                · subst h0; simp
                · subst h1; simp
                · subst h2
                  refine List.chain'_cons.mpr ⟨?_, by simp⟩
                  refine Or.inr ⟨?_, ?_⟩
                  · rw [from_one_delta_path, from_one_delta_path]
                    exact hc0
                  · unfold splitPair
                    rw [from_one_delta_status, from_one_delta_status]
                    cases hrev : st.opts.reverse <;> simp [remapStatus]
              have hmemL : ∀ d ∈ L,
                  deltaPath d ∈ flatPaths (oi :: orest) ++ flatPaths (ni :: nrest) := by
                intro d hd
                rcases hpaths d hd with hp | hp
                · rw [hp]
                  exact List.mem_append_left _ (head_mem_flat _ _)
                · rw [hp]
                  exact List.mem_append_right _ (head_mem_flat _ _)
              have hs2 : SortedDeltas st.opts.reverse icase st2.deltas := by
                rw [hdel]
                exact sorted_append hs hb hchainL hmemL
              have hb2 : DeltasBelow icase st2.deltas
                  (flatPaths orest ++ flatPaths nrest) := by
                rw [hdel]
                refine below_append (below_mono ?_ hb) ?_
                · intro q hq
                  rcases List.mem_append.mp hq with hq | hq
                  · exact List.mem_append_left _ (mem_flat_rest hq)
                  · exact List.mem_append_right _ (mem_flat_rest hq)
                · intro d hd q hq
                  have hoq : pathCmp icase oi.entry.path q < 0 := by
                    rcases List.mem_append.mp hq with hq | hq
                    · exact wf_head_lt hwo q (List.mem_append_right _ hq)
                    · exact pathCmp_zero_lt_trans hc0
                        (wf_head_lt hwn q (List.mem_append_right _ hq))
                  rcases hpaths d hd with hp | hp
                  · rw [hp]
                    exact hoq
                  · rw [hp]
                    exact pathCmp_zero_lt_trans hc0n hoq
              have hres := ih orest nrest _ st2 st' (wf_drop hwo) (wf_drop hwn)
                hb2 (by rw [hopts]; exact hs2) h
              rw [hopts] at hres
              exact hres

end Git

namespace Git

/-- Pairwise strict increase of an append-order delta list under the
(path, status) comparator, as an executable check. -/
def deltasPairwiseCmpInc : List Delta → Bool
  | [] => true
  | [_] => true
  | d1 :: d2 :: rest => (git_diff_delta__cmp d1 d2 < 0) && deltasPairwiseCmpInc (d2 :: rest)

/-- C1 counterexample: a matched pair at path "p" whose mode type class
changed, with typechange reporting off, is split into a deleted delta
followed by an added delta at the SAME path; under the (path, status)
comparator the deleted delta (status code 2) compares strictly greater
than the following added delta (status code 1), so the append-order
sequence is not strictly increasing. -/
theorem delta_order_split_counterexample :
    ((diff_from_iterators allEnv .workdir false 10
        [.mk (mkEntry "p" 3 33188) false false []]
        [.mk (mkEntry "p" 5 40960) false false []] ""
        { opts := mkOpts false false false false false false false,
          caps := mkCaps false, deltas := [] }).map
      (fun s => s.deltas.map (fun d => (d.oldFile.path, statusCode d.status))))
      = some [("p", 2), ("p", 1)] ∧
    ((diff_from_iterators allEnv .workdir false 10
        [.mk (mkEntry "p" 3 33188) false false []]
        [.mk (mkEntry "p" 5 40960) false false []] ""
        { opts := mkOpts false false false false false false false,
          caps := mkCaps false, deltas := [] }).map
      (fun s => deltasPairwiseCmpInc s.deltas))
      = some false := by
  decide

/-- C1 as amended: for every pair of well-formed entry sources and every
options value, the delta sequence of a single compare run is
non-decreasing in path under the negotiated comparator, and adjacent
deltas share a path only at a matched pair split into two single-sided
deltas — there the deleted-side delta precedes the added-side delta (the
second possibly later patched to typechange), so at a split the adjacent
pair is NOT strictly ordered by the (path, status) comparator in a
non-reverse run. -/
theorem delta_append_order (fuel : Nat) (env : Env) (newType : IterType)
    (icase : Bool) (olds news : List Item) (opts : Options) (caps : DiffCaps)
    (st' : DiffState)
    (hwo : WfItems icase olds) (hwn : WfItems icase news)
    (h : diff_from_iterators env newType icase fuel olds news ""
          { opts := opts, caps := caps, deltas := [] } = some st') :
    List.Chain' (goodPair opts.reverse icase) st'.deltas := by
  have hres := diff_run_sorted env newType icase fuel olds news "" _ st'
    hwo hwn (by intro d hd; simp at hd) (by simp [SortedDeltas]) h
  exact hres.2

/-- C1 witness: the amended order invariant for a concrete (empty) run. -/
theorem delta_append_order_witness :
    List.Chain' (goodPair (mkOpts false false false false false false false).reverse false)
      ({ opts := mkOpts false false false false false false false,
         caps := mkCaps false, deltas := [] } : DiffState).deltas :=
  delta_append_order 1 allEnv .workdir false [] []
    (mkOpts false false false false false false false) (mkCaps false) _
    (by simp [WfItems, flatPaths]) (by simp [WfItems, flatPaths]) rfl

end Git
